import Mathlib

/-!
# Verification of the CGRtools core against its specification

This file gives a shallow embedding, in Lean 4, of the parts of the CGRtools
code base that the specification's testable properties talk about:

* `src/CGRtools/algorithms/sssr.py` — the SSSR ring finder `find_sssr`;
* `src/CGRtools/reactor.py` — attribute comparison (`__list_eq`), the
  template searcher, `patcher`, and `clone_subgraphs`;
* `src/CGRtools/containers/cgr.py` — `CGRContainer.add_atom`, `add_bond`
  and `add_stereo`.

Python functions are translated into executable Lean definitions.  External
collaborators (the `networkx` library's path/isomorphism routines, the
periodic-table data) and repository code that is not part of the provided
sources (`MoleculeContainer` internals, `CGRcore`) appear either as explicit
function parameters or as definitions whose doc comment starts with
`Modelled from the spec:`.
-/

set_option maxHeartbeats 1000000

namespace CGRtools

/-! ## SSSR: graph representation

`find_sssr` only consumes the graph through `g.number_of_edges()`, `len(g)`,
iteration over nodes (`combinations(g, 2)`) and `shortest_simple_paths`.
A graph is therefore embedded as its node list and undirected edge list
(each undirected edge recorded once, as in `networkx.Graph`). -/

structure NXGraph where
  nodes : List Nat
  edges : List (Nat × Nat)
deriving Repr, DecidableEq

namespace SSSR

/-- `itertools.combinations(xs, 2)`: all ordered-by-position pairs. -/
def combinations2 {α : Type} : List α → List (α × α)
  | [] => []
  | x :: xs => xs.map (fun y => (x, y)) ++ combinations2 xs

/-- The inner `for path in shortest_simple_paths(...)` loop of `find_sssr`
(lines 46-61): the first path fixed `ls`; later paths of length `ls` are
appended to `pid1`, paths of length `ls + 1` to `pid2`, and the loop breaks
at the first other length. -/
def collectLoop (ls : Nat) (p1 p2 : List (List Nat)) : List (List Nat) → List (List Nat) × List (List Nat)
  | [] => (p1, p2)
  | p :: rest =>
    if p.length = ls then collectLoop ls (p1 ++ [p]) p2 rest
    else if p.length = ls + 1 then collectLoop ls p1 (p2 ++ [p]) rest
    else (p1, p2)

/-- A ring candidate `(c_num, p1ij, p2ij)` of `find_sssr`.  The Python value
`p2ij = None` (pair absent from `pid2`) is embedded as the empty list, which
is faithful because `pid2` entries are created non-empty and only appended
to. -/
abbrev Cand := Nat × List (List Nat) × List (List Nat)

/-- Python `<` on lists of ints (lexicographic), as three-way comparison. -/
def listNatCmp : List Nat → List Nat → Ordering
  | [], [] => .eq
  | [], _ :: _ => .lt
  | _ :: _, [] => .gt
  | a :: as, b :: bs =>
    match compare a b with
    | .eq => listNatCmp as bs
    | o => o

/-- Python `<` on lists of lists of ints (lexicographic). -/
def pathsCmp : List (List Nat) → List (List Nat) → Ordering
  | [], [] => .eq
  | [], _ :: _ => .lt
  | _ :: _, [] => .gt
  | a :: as, b :: bs =>
    match listNatCmp a b with
    | .eq => pathsCmp as bs
    | o => o

/-- The comparison used by `sorted(c_set)`: Python tuple comparison, i.e.
lexicographic on `(c_num, p1ij, p2ij)`.  (CPython would raise on comparing
`None` with a list in the third slot; candidates never tie on the first two
slots for distinct pairs, so a total order extending the Python one is a
faithful model.) -/
def candLe (a b : Cand) : Bool :=
  match compare a.1 b.1 with
  | .lt => true
  | .gt => false
  | .eq =>
    match pathsCmp a.2.1 b.2.1 with
    | .lt => true
    | .gt => false
    | .eq =>
      match pathsCmp a.2.2 b.2.2 with
      | .gt => false
      | _ => true

/-- `tuple(sorted(c))` (line 85/95). -/
def pySorted (c : List Nat) : List Nat := c.mergeSort (fun a b => decide (a ≤ b))

/-- `c2[-2:0:-1]`: the interior of `c2` (without its two endpoints),
reversed. -/
def pyInterior (c : List Nat) : List Nat := ((c.drop 1).dropLast).reverse

/-- `len(set(c1).intersection(c2))`: the number of distinct values occurring
in both lists. -/
def setInterSize (c1 c2 : List Nat) : Nat :=
  ((c1.dedup).filter (fun x => c2.contains x)).length

/-- The ring dictionary `c_sssr` (insertion ordered, keyed by the sorted
atom tuple) together with `n_ringidx`. -/
abbrev RingDict := List (List Nat × List Nat)

/-- Lines 85-90 / 95-100 of `find_sssr`: attempt to record the closed ring
`c`; afterwards, if `n_ringidx == n_sssr`, return `list(c_sssr.values())`
(right injection), else continue with the updated state (left injection). -/
def addRing (nSssr : Int) (st : Nat × RingDict) (c : List Nat) :
    (Nat × RingDict) ⊕ List (List Nat) :=
  let ck := pySorted c
  let st2 := if st.2.any (fun kv => kv.1 == ck) then st else (st.1 + 1, st.2 ++ [(ck, c)])
  if (st2.1 : Int) = nSssr then Sum.inr (st2.2.map (·.2)) else Sum.inl st2

/-- The odd-candidate inner loop (lines 80-90): `c1` against each `c2` in
`p2ij`. -/
def closeOdd (nSssr : Int) (c1 : List Nat) (st : Nat × RingDict) :
    List (List Nat) → (Nat × RingDict) ⊕ List (List Nat)
  | [] => Sum.inl st
  | c2 :: rest =>
    if setInterSize c1 c2 = 2 then
      match addRing nSssr st (c1 ++ pyInterior c2) with
      | Sum.inr res => Sum.inr res
      | Sum.inl st2 => closeOdd nSssr c1 st2 rest
    else closeOdd nSssr c1 st rest

/-- The even-candidate inner loop (lines 92-100): consecutive pairs of
`p1ij` (`zip(p1ij, p1ij[1:])`). -/
def closeEven (nSssr : Int) (st : Nat × RingDict) :
    List (List Nat × List Nat) → (Nat × RingDict) ⊕ List (List Nat)
  | [] => Sum.inl st
  | (c1, c2) :: rest =>
    if setInterSize c1 c2 = 2 then
      match addRing nSssr st (c1 ++ pyInterior c2) with
      | Sum.inr res => Sum.inr res
      | Sum.inl st2 => closeEven nSssr st2 rest
    else closeEven nSssr st rest

/-- One iteration of `for c_num, p1ij, p2ij in sorted(c_set)` (line 78). -/
def processCand (nSssr : Int) (st : Nat × RingDict) (c : Cand) :
    (Nat × RingDict) ⊕ List (List Nat) :=
  if c.1 % 2 = 1 then closeOdd nSssr (c.2.1.headD []) st c.2.2
  else closeEven nSssr st (c.2.1.zip (c.2.1.drop 1))

/-- The candidate processing loop; falling off the end of the Python
function returns `None`. -/
def processAll (nSssr : Int) : List Cand → (Nat × RingDict) → Option (List (List Nat))
  | [], _ => none
  | c :: rest, st =>
    match processCand nSssr st c with
    | Sum.inr res => some res
    | Sum.inl st2 => processAll nSssr rest st2

/-- `pid1[ij], pid2[ij]` for one pair, from the full path enumeration. -/
def pidOf : List (List Nat) → List (List Nat) × List (List Nat)
  | [] => ([], [])
  | p :: rest => collectLoop p.length [p] [] rest

/-- The `for ij in combinations(g, 2)` loop (lines 45-61) building `pid1`
and `pid2`, keyed in insertion order.  An empty path enumeration models the
`NetworkXNoPath` exception raised by the `networkx` generator, which
propagates out of `find_sssr` (`.error`). -/
def buildPid (sp : NXGraph → Nat → Nat → List (List Nat)) (g : NXGraph) :
    List (Nat × Nat) → Except Unit (List ((Nat × Nat) × List (List Nat) × List (List Nat)))
  | [] => Except.ok []
  | ij :: rest =>
    match sp g ij.1 ij.2 with
    | [] => Except.error ()
    | p :: ps =>
      match buildPid sp g rest with
      | Except.error e => Except.error e
      | Except.ok tl => Except.ok ((ij, collectLoop p.length [p] [] ps) :: tl)

/-- Lines 64-75 for a single `pid1` entry: skip it (`continue`) or build its
ring candidate `(c_num, p1ij, p2ij)`. -/
def candOf (e : (Nat × Nat) × List (List Nat) × List (List Nat)) : Option Cand :=
  if e.2.2 = [] ∧ e.2.1.length = 1 then none
  else some (2 * ((e.2.1.headD []).length - 1) + (if e.2.2 = [] then 0 else 1), e.2.1, e.2.2)

/-- Lines 63-75: turn the `pid1`/`pid2` tables into the candidate set. -/
def candSet (pid : List ((Nat × Nat) × List (List Nat) × List (List Nat))) : List Cand :=
  pid.filterMap candOf

/-- `find_sssr` (sssr.py, lines 31-100).  The parameter `sp` embeds the
external collaborator `networkx.shortest_simple_paths` (all simple paths
between two nodes, shortest first).  The `none` result is the Python
`return None`. -/
def find_sssr (sp : NXGraph → Nat → Nat → List (List Nat)) (g : NXGraph) :
    Except Unit (Option (List (List Nat))) :=
  let nSssr : Int := (g.edges.length : Int) - (g.nodes.length : Int) + 1
  if nSssr = 0 then Except.ok none
  else
    match buildPid sp g (combinations2 g.nodes) with
    | Except.error e => Except.error e
    | Except.ok pid => Except.ok (processAll nSssr ((candSet pid).mergeSort candLe) (0, []))

/-! ### The canonical simple-cycle graph and simple paths in it -/

/-- The single simple cycle on the `n` atoms `0, …, n-1`. -/
def cycleGraph (n : Nat) : NXGraph :=
  ⟨List.range n, (List.range n).map (fun i => (i, (i + 1) % n))⟩

/-- Undirected adjacency in an `NXGraph`. -/
def adjB (g : NXGraph) (a b : Nat) : Bool :=
  decide ((a, b) ∈ g.edges) || decide ((b, a) ∈ g.edges)

/-- `p` is a simple path from `u` to `v` in `g`: what
`networkx.shortest_simple_paths` enumerates (for `u ≠ v`). -/
def IsPath (g : NXGraph) (u v : Nat) (p : List Nat) : Prop :=
  p.head? = some u ∧ p.getLast? = some v ∧ p.Nodup ∧
    p.Chain' (fun a b => adjB g a b = true)

instance (g : NXGraph) (u v : Nat) (p : List Nat) : Decidable (IsPath g u v p) := by
  unfold IsPath; infer_instance

/-- The arc `[u, u+1, …, u+d]` (mod `n`). -/
def arc (n u d : Nat) : List Nat := (List.range (d + 1)).map (fun k => (u + k) % n)

/-- Cyclic distance from `u` up to `v` (mod `n`). -/
def dUp (n u v : Nat) : Nat := (v + n - u) % n

/-- The increasing arc from `u` to `v`. -/
def arcU (n u v : Nat) : List Nat := arc n u (dUp n u v)

/-- The decreasing arc from `u` to `v` (the increasing arc from `v` to `u`,
reversed). -/
def arcD (n u v : Nat) : List Nat := (arc n v (dUp n v u)).reverse

/-- The two simple paths between two distinct nodes of the cycle, shortest
first: a concrete realization of `networkx.shortest_simple_paths` on
`cycleGraph n`, used by the witness. -/
def cycSP (n : Nat) (_g : NXGraph) (u v : Nat) : List (List Nat) :=
  if dUp n u v ≤ dUp n v u then [arcU n u v, arcD n u v] else [arcD n u v, arcU n u v]

/-- What `find_sssr` assumes about the external path enumerator on a graph
whose node set is `0, …, n-1`: for every pair of distinct nodes it yields
exactly the simple paths between them, each once, shortest first. -/
def SpValid (sp : NXGraph → Nat → Nat → List (List Nat)) (g : NXGraph) (n : Nat) : Prop :=
  ∀ u v : Nat, u < n → v < n → u ≠ v →
    (∀ p, p ∈ sp g u v ↔ IsPath g u v p) ∧ (sp g u v).Nodup ∧
      (sp g u v).Pairwise (fun a b => a.length ≤ b.length)

/-! ### Modular arithmetic helpers -/

theorem mod_cancel_right (u x n : Nat) : (u + x % n) % n = (u + x) % n := by
  simp [Nat.add_mod]

theorem mod_cancel_left (x u n : Nat) : (x % n + u) % n = (x + u) % n := by
  simp [Nat.add_mod]

theorem dUp_spec {n u v : Nat} (hu : u < n) (hv : v < n) :
    dUp n u v = if u ≤ v then v - u else v + n - u := by
  unfold dUp
  split
  · have h1 : v + n - u = (v - u) + n := by omega
    rw [h1, Nat.add_mod_right, Nat.mod_eq_of_lt (by omega)]
  · exact Nat.mod_eq_of_lt (by omega)

theorem dUp_lt {n : Nat} (hn : 0 < n) (u v : Nat) : dUp n u v < n :=
  Nat.mod_lt _ hn

theorem dUp_pos {n u v : Nat} (hu : u < n) (hv : v < n) (huv : u ≠ v) :
    0 < dUp n u v := by
  rw [dUp_spec hu hv]; split <;> omega

theorem dUp_add {n u v : Nat} (hu : u < n) (hv : v < n) (huv : u ≠ v) :
    dUp n u v + dUp n v u = n := by
  rw [dUp_spec hu hv, dUp_spec hv hu]
  split <;> split <;> omega

theorem add_dUp {n u v : Nat} (hu : u < n) (hv : v < n) :
    (u + dUp n u v) % n = v := by
  rw [dUp_spec hu hv]
  split
  · rw [show u + (v - u) = v by omega, Nat.mod_eq_of_lt hv]
  · rw [show u + (v + n - u) = v + n by omega, Nat.add_mod_right, Nat.mod_eq_of_lt hv]

theorem mod_shift_inj {n u k1 k2 : Nat} (h1 : k1 < n) (h2 : k2 < n)
    (h : (u + k1) % n = (u + k2) % n) : k1 = k2 := by
  have h3 : k1 % n = k2 % n := Nat.ModEq.add_left_cancel' u h
  rwa [Nat.mod_eq_of_lt h1, Nat.mod_eq_of_lt h2] at h3

/-- Solve `(u + e) % n = v` for `e < n`. -/
theorem mod_shift_solve {n u v e : Nat} (hu : u < n) (hv : v < n) (he : e < n)
    (h : (u + e) % n = v) : e = dUp n u v := by
  rcases Nat.lt_or_ge (u + e) n with hlt | hge
  · rw [Nat.mod_eq_of_lt hlt] at h
    rw [dUp_spec hu hv]; split <;> omega
  · have h2 : (u + e) % n = u + e - n := by
      have : u + e - n < n := by omega
      rw [Nat.mod_eq_sub_mod hge, Nat.mod_eq_of_lt this]
    rw [h2] at h
    rw [dUp_spec hu hv]; split <;> omega

/-- Two shifts ≤ `n` with equal residues: equal, or the pair `(n, 0)`. -/
theorem mod_shift_inj_le {n u k1 k2 : Nat} (h1 : k1 ≤ n) (h2 : k2 < n)
    (h : (u + k1) % n = (u + k2) % n) : k1 = k2 ∨ (k1 = n ∧ k2 = 0) := by
  rcases Nat.lt_or_ge k1 n with hlt | hge
  · exact Or.inl (mod_shift_inj hlt h2 h)
  · have hk : k1 = n := by omega
    rw [hk, show u + n = u + 0 + n by omega, Nat.add_mod_right] at h
    have h0 : (0 : Nat) = k2 := mod_shift_inj (by omega) h2 h
    omega

/-! ### Structure of simple paths in the cycle graph -/

theorem adjB_symm (g : NXGraph) (a b : Nat) : adjB g a b = adjB g b a := by
  unfold adjB; rw [Bool.or_comm]

theorem cycle_adj {n a b : Nat} (h : adjB (cycleGraph n) a b = true) :
    (a < n ∧ b = (a + 1) % n) ∨ (b < n ∧ a = (b + 1) % n) := by
  unfold adjB cycleGraph at h
  simp only [Bool.or_eq_true, decide_eq_true_eq, List.mem_map, List.mem_range,
    Prod.mk.injEq] at h
  rcases h with ⟨i, hi, hia, hib⟩ | ⟨i, hi, hib, hia⟩
  · exact Or.inl ⟨hia ▸ hi, by rw [← hia, hib]⟩
  · exact Or.inr ⟨hib ▸ hi, by rw [← hib, hia]⟩

theorem cycle_adj_succ {n a : Nat} (ha : a < n) :
    adjB (cycleGraph n) a ((a + 1) % n) = true := by
  unfold adjB cycleGraph
  simp only [Bool.or_eq_true, decide_eq_true_eq, List.mem_map, List.mem_range,
    Prod.mk.injEq]
  exact Or.inl ⟨a, ha, rfl, rfl⟩

theorem cycle_adj_lt {n a b : Nat} (h : adjB (cycleGraph n) a b = true) :
    a < n ∧ b < n := by
  rcases cycle_adj h with ⟨ha, hb⟩ | ⟨hb, ha⟩
  · exact ⟨ha, hb ▸ Nat.mod_lt _ (by omega)⟩
  · exact ⟨ha ▸ Nat.mod_lt _ (by omega), hb⟩

/-- A step from `a` in the cycle goes up by `1` or down by `1` (i.e. up by
`n - 1`), mod `n`. -/
theorem adj_step {n a b : Nat} (ha : a < n)
    (h : adjB (cycleGraph n) a b = true) :
    b = (a + 1) % n ∨ b = (a + (n - 1)) % n := by
  rcases cycle_adj h with ⟨_, hb⟩ | ⟨hb, hab⟩
  · exact Or.inl hb
  · right
    rw [hab, mod_cancel_left, show b + 1 + (n - 1) = b + n by omega,
      Nat.add_mod_right, Nat.mod_eq_of_lt hb]

/-- Once a simple path in the cycle has taken a step of size `s`
(`s ∈ {1, n-1}`), it must keep stepping by `s`: it is an arithmetic
progression mod `n`. -/
theorem march {n : Nat} (hn : 3 ≤ n) {s : Nat} (hs : s = 1 ∨ s = n - 1) :
    ∀ (t : List Nat) (a : Nat), a < n →
      List.Chain' (fun x y => adjB (cycleGraph n) x y = true) (a :: (a + s) % n :: t) →
      (a :: (a + s) % n :: t).Nodup →
      a :: (a + s) % n :: t = (List.range (t.length + 2)).map (fun k => (a + s * k) % n)
  | [], a, ha, _, _ => by
    simp [List.range_succ, Nat.mod_eq_of_lt ha]
  | c :: t', a, ha, hch, hnd => by
    have hb : (a + s) % n < n := Nat.mod_lt _ (by omega)
    have hadj : adjB (cycleGraph n) ((a + s) % n) c = true := by
      rcases hch with _ | ⟨_, hch2⟩
      rcases hch2 with _ | ⟨hd, _⟩
      exact hd
    have hchtl : List.Chain' (fun x y => adjB (cycleGraph n) x y = true) ((a + s) % n :: c :: t') := by
      rcases hch with _ | ⟨_, hch2⟩; exact hch2
    have hndtl : ((a + s) % n :: c :: t').Nodup := hnd.of_cons
    have hca : c ≠ a := by
      have : a ∉ (a + s) % n :: c :: t' := (List.nodup_cons.mp hnd).1
      simp only [List.mem_cons] at this
      intro hc; exact this (Or.inr (Or.inl hc.symm))
    have hcb : c = ((a + s) % n + s) % n := by
      rcases adj_step hb hadj with h1 | h1
      · rcases hs with hs1 | hsn
        · rw [hs1] at h1 ⊢; exact h1
        · exfalso; apply hca
          rw [h1, hsn, mod_cancel_left, show a + (n - 1) + 1 = a + n by omega,
            Nat.add_mod_right, Nat.mod_eq_of_lt ha]
      · rcases hs with hs1 | hsn
        · exfalso; apply hca
          rw [h1, hs1, mod_cancel_left, show a + 1 + (n - 1) = a + n by omega,
            Nat.add_mod_right, Nat.mod_eq_of_lt ha]
        · rw [hsn] at h1 ⊢; exact h1
    have ih := march hn hs t' ((a + s) % n) hb (by rwa [← hcb]) (by rwa [← hcb])
    rw [hcb]
    simp only [List.length_cons]
    rw [show t'.length + 1 + 2 = (t'.length + 2) + 1 by omega, List.range_succ_eq_map]
    simp only [List.map_cons, List.map_map]
    rw [Nat.mul_zero, Nat.add_zero, Nat.mod_eq_of_lt ha]
    refine congrArg (a :: ·) ?_
    rw [ih]
    refine List.map_congr_left (fun k _ => ?_)
    simp only [Function.comp_apply]
    rw [mod_cancel_left]
    congr 1
    rw [Nat.mul_succ]
    ring

/-- A nodup arithmetic-progression list mod `n` has at most `n` entries. -/
theorem nodup_progression_le {n s L a : Nat} (hn : 0 < n)
    (hnd : ((List.range L).map (fun k => (a + s * k) % n)).Nodup) : L ≤ n := by
  by_contra hcon
  push_neg at hcon
  have hinj := List.nodup_iff_injective_get.mp hnd
  have h0 : ((List.range L).map (fun k => (a + s * k) % n)).get
      ⟨0, by simp; omega⟩ = a % n := by
    simp
  have h1 : ((List.range L).map (fun k => (a + s * k) % n)).get
      ⟨n, by simp; omega⟩ = a % n := by
    simp [Nat.add_mul_mod_self_left]
  have := hinj (h0.trans h1.symm)
  simp only [Fin.mk.injEq] at this
  omega

theorem getLast?_map_range (f : Nat → Nat) (L : Nat) (hL : 0 < L) :
    ((List.range L).map f).getLast? = some (f (L - 1)) := by
  obtain ⟨m, rfl⟩ : ∃ m, L = m + 1 := ⟨L - 1, by omega⟩
  rw [List.range_succ, List.map_append]
  simp

theorem get_map_range (f : Nat → Nat) (L i : Nat) (h : i < ((List.range L).map f).length) :
    ((List.range L).map f).get ⟨i, h⟩ = f i := by
  simp at h
  simp [h]

theorem arc_length (n u d : Nat) : (arc n u d).length = d + 1 := by simp [arc]

theorem arc_head {n u : Nat} (d : Nat) (hu : u < n) : (arc n u d).head? = some u := by
  unfold arc
  rw [List.range_succ_eq_map]
  simp [Nat.mod_eq_of_lt hu]

theorem arc_getLast (n u d : Nat) : (arc n u d).getLast? = some ((u + d) % n) := by
  unfold arc
  rw [getLast?_map_range _ _ (by omega)]
  simp

theorem arc_get (n u d i : Nat) (h : i < (arc n u d).length) :
    (arc n u d).get ⟨i, h⟩ = (u + i) % n := by
  unfold arc at h ⊢
  exact get_map_range _ _ _ h

theorem arc_nodup {n d : Nat} (u : Nat) (hd : d < n) : (arc n u d).Nodup := by
  have hp := List.Pairwise.and_mem.mp (List.pairwise_lt_range (d + 1))
  refine List.Pairwise.map _ (fun a b h => h) (hp.imp ?_)
  intro a b h
  obtain ⟨ha, hb, hab⟩ := h
  simp only [List.mem_range] at ha hb
  intro hfe
  exact absurd (mod_shift_inj (by omega) (by omega) hfe) (by omega)

theorem arc_chain {n u : Nat} (d : Nat) (hn : 0 < n) :
    (arc n u d).Chain' (fun a b => adjB (cycleGraph n) a b = true) := by
  rw [List.chain'_iff_get]
  intro i hi
  rw [arc_get, arc_get]
  have hlt : (u + i) % n < n := Nat.mod_lt _ hn
  have := cycle_adj_succ hlt
  rwa [mod_cancel_left] at this

theorem arcU_isPath {n u v : Nat} (hn : 3 ≤ n) (hu : u < n) (hv : v < n) :
    IsPath (cycleGraph n) u v (arcU n u v) := by
  refine ⟨arc_head _ hu, ?_, arc_nodup u (dUp_lt (by omega) u v), arc_chain _ (by omega)⟩
  show (arc n u (dUp n u v)).getLast? = some v
  rw [arc_getLast, add_dUp hu hv]

theorem arcD_isPath {n u v : Nat} (hn : 3 ≤ n) (hu : u < n) (hv : v < n) :
    IsPath (cycleGraph n) u v (arcD n u v) := by
  unfold arcD
  refine ⟨?_, ?_, ?_, ?_⟩
  · rw [List.head?_reverse, arc_getLast, add_dUp hv hu]
  · rw [List.getLast?_reverse, arc_head _ hv]
  · rw [List.nodup_reverse]
    exact arc_nodup v (dUp_lt (by omega) v u)
  · rw [List.chain'_reverse]
    exact (arc_chain _ (by omega)).imp (fun a b h => by
      show adjB (cycleGraph n) b a = true
      rwa [adjB_symm])

/-- **Simple paths in the cycle are exactly the two arcs.** -/
theorem cycle_path_iff {n u v : Nat} (hn : 3 ≤ n) (hu : u < n) (hv : v < n)
    (huv : u ≠ v) (p : List Nat) :
    IsPath (cycleGraph n) u v p ↔ p = arcU n u v ∨ p = arcD n u v := by
  constructor
  · rintro ⟨hh, hl, hnd, hch⟩
    cases p with
    | nil => simp at hh
    | cons a t =>
      obtain rfl : u = a := Eq.symm (by simpa using hh)
      cases t with
      | nil =>
        exfalso
        simp only [List.getLast?_singleton, Option.some.injEq] at hl
        exact huv hl
      | cons b t2 =>
        have hadj : adjB (cycleGraph n) u b = true := by
          rcases hch with _ | ⟨hd, _⟩
          exact hd
        rcases adj_step hu hadj with hb | hb
        · -- increasing direction
          subst hb
          have heq := march hn (Or.inl rfl) t2 u hu
            (by simpa using hch) (by simpa using hnd)
          simp only [one_mul] at heq
          set L := t2.length + 2 with hL
          have hLn : L ≤ n := by
            refine nodup_progression_le (n := n) (s := 1) (a := u) (by omega) ?_
            simp only [one_mul]
            rw [← heq]
            simpa using hnd
          have hlast : (u + (L - 1)) % n = v := by
            rw [heq, getLast?_map_range _ _ (by omega)] at hl
            simpa using hl
          have hd : L - 1 = dUp n u v :=
            mod_shift_solve hu hv (by omega) hlast
          left
          rw [arcU, arc, ← hd, show L - 1 + 1 = L by omega]
          exact heq
        · -- decreasing direction
          subst hb
          have heq := march hn (Or.inr rfl) t2 u hu
            (by simpa using hch) (by simpa using hnd)
          set L := t2.length + 2 with hL
          have hLn : L ≤ n := by
            refine nodup_progression_le (n := n) (s := n - 1) (a := u) (by omega) ?_
            rw [← heq]
            simpa using hnd
          have hlast : (u + (n - 1) * (L - 1)) % n = v := by
            rw [heq, getLast?_map_range _ _ (by omega)] at hl
            simpa using hl
          have hmul : ∀ e : Nat, (n - 1) * e + e = n * e := by
            intro e
            have h3 : n - 1 + 1 = n := by omega
            calc (n - 1) * e + e = (n - 1 + 1) * e := by ring
            _ = n * e := by rw [h3]
          have hback : (v + (L - 1)) % n = u := by
            rw [← hlast, mod_cancel_left]
            rw [show u + (n - 1) * (L - 1) + (L - 1) = u + ((n - 1) * (L - 1) + (L - 1)) by omega,
              hmul, Nat.mul_comm, Nat.add_mul_mod_self_right, Nat.mod_eq_of_lt hu]
          have hd : L - 1 = dUp n v u :=
            mod_shift_solve hv hu (by omega) hback
          right
          rw [arcD, heq]
          set D := dUp n v u with hD
          have hrlen : (arc n v D).reverse.length = L := by
            rw [List.length_reverse, arc_length]; omega
          refine List.ext_getElem?_iff.mpr (fun i => ?_)
          rcases Nat.lt_or_ge i L with hi | hi
          · have hi2 : i < (arc n v D).length := by rw [arc_length]; omega
            rw [List.getElem?_reverse hi2, List.getElem?_map,
              List.getElem?_range (by omega : i < L)]
            have hiA : (arc n v D).length - 1 - i < (arc n v D).length := by
              rw [arc_length]; omega
            rw [List.getElem?_eq_getElem hiA,
              ← List.get_eq_getElem (arc n v D) ⟨_, hiA⟩, arc_get]
            have hiD : i ≤ D := by omega
            have hvu : (v + D) % n = u := add_dUp hv hu
            rw [arc_length]
            have harith : v + D + (n - 1) * i = v + (D + 1 - 1 - i) + n * i := by
              have h5 := hmul i
              have h6 : n * i ≥ i := Nat.le_mul_of_pos_left i (by omega)
              generalize n * i = m at h5 h6 ⊢
              generalize (n - 1) * i = q at h5 ⊢
              omega
            simp only [Option.map_some', Option.some.injEq]
            rw [← hvu, mod_cancel_left, harith, Nat.mul_comm, Nat.add_mul_mod_self_right]
          · rw [List.getElem?_eq_none (by simpa using hi),
              List.getElem?_eq_none (by omega : (arc n v D).reverse.length ≤ i)]
  · rintro (rfl | rfl)
    · exact arcU_isPath hn hu hv
    · exact arcD_isPath hn hu hv

/-- **C2.** For every acyclic connected graph (edge count = node count − 1),
`find_sssr` returns the empty result (`None`, i.e. no rings): the target
ring count `n_sssr = edges − nodes + 1` is zero and the function returns
immediately. -/
theorem find_sssr_acyclic (sp : NXGraph → Nat → Nat → List (List Nat)) (g : NXGraph)
    (h : (g.edges.length : Int) - (g.nodes.length : Int) + 1 = 0) :
    find_sssr sp g = Except.ok none := by
  unfold find_sssr
  simp [h]

/-- Witness for C2: the two-node path graph (2 nodes, 1 edge). -/
theorem find_sssr_acyclic_witness :
    find_sssr (fun _ _ _ => []) ⟨[1, 2], [(1, 2)]⟩ = Except.ok none :=
  find_sssr_acyclic (fun _ _ _ => []) ⟨[1, 2], [(1, 2)]⟩ (by decide)

/-- A nodup list whose members are exactly two distinct values is one of the
two orderings of those values. -/
theorem nodup_pair_ext {α : Type} {l : List α} {a b : α} (hnd : l.Nodup)
    (hmem : ∀ x, x ∈ l ↔ x = a ∨ x = b) (hab : a ≠ b) :
    l = [a, b] ∨ l = [b, a] := by
  have haIn : a ∈ l := (hmem a).mpr (Or.inl rfl)
  have hbIn : b ∈ l := (hmem b).mpr (Or.inr rfl)
  cases l with
  | nil => cases haIn
  | cons x t =>
    cases t with
    | nil =>
      exfalso
      simp only [List.mem_singleton] at haIn hbIn
      exact hab (haIn.trans hbIn.symm)
    | cons y t2 =>
      have hx := (hmem x).mp (by simp)
      have hy := (hmem y).mp (by simp)
      have hxn : x ∉ y :: t2 := (List.nodup_cons.mp hnd).1
      have hxy : x ≠ y := fun he => hxn (he ▸ List.mem_cons_self _ _)
      have ht2 : t2 = [] := by
        cases t2 with
        | nil => rfl
        | cons z t3 =>
          exfalso
          have hz := (hmem z).mp (by simp)
          have h1 : x ∉ y :: z :: t3 := (List.nodup_cons.mp hnd).1
          have h2 : y ∉ z :: t3 := (List.nodup_cons.mp (List.nodup_cons.mp hnd).2).1
          simp only [List.mem_cons, not_or] at h1 h2
          rcases hx with rfl | rfl <;> rcases hy with rfl | rfl <;>
            rcases hz with h3 | h3 <;>
              first
                | exact hxy rfl
                | exact h1.2.1 h3.symm
                | exact h2.1 h3.symm
      subst ht2
      rcases hx with rfl | rfl
      · rcases hy with rfl | rfl
        · exact absurd rfl hxy
        · exact Or.inl rfl
      · rcases hy with rfl | rfl
        · exact Or.inr rfl
        · exact absurd rfl hxy

theorem arcD_length (n u v : Nat) : (arcD n u v).length = dUp n v u + 1 := by
  unfold arcD
  rw [List.length_reverse, arc_length]

theorem arcU_length (n u v : Nat) : (arcU n u v).length = dUp n u v + 1 := by
  unfold arcU
  rw [arc_length]

theorem arcU_ne_arcD {n u v : Nat} (hn : 3 ≤ n) (hu : u < n) (hv : v < n)
    (huv : u ≠ v) : arcU n u v ≠ arcD n u v := by
  intro he
  have hdU : 0 < dUp n u v := dUp_pos hu hv huv
  have hdD : 0 < dUp n v u := dUp_pos hv hu (Ne.symm huv)
  have hlen := congrArg List.length he
  rw [arcU_length, arcD_length] at hlen
  have hdd : dUp n u v = dUp n v u := by omega
  have he1 := congrArg (fun l => l[1]?) he
  have hL : 1 < (arc n v (dUp n v u)).length := by rw [arc_length]; omega
  simp only at he1
  rw [show arcU n u v = (List.range (dUp n u v + 1)).map (fun k => (u + k) % n) from rfl,
    List.getElem?_map, List.getElem?_range (by omega : 1 < dUp n u v + 1)] at he1
  rw [show arcD n u v = (arc n v (dUp n v u)).reverse from rfl,
    List.getElem?_reverse hL] at he1
  rw [arc_length] at he1
  have hidx : dUp n v u + 1 - 1 - 1 < (arc n v (dUp n v u)).length := by
    rw [arc_length]; omega
  rw [List.getElem?_eq_getElem hidx, ← List.get_eq_getElem _ ⟨_, hidx⟩, arc_get] at he1
  simp only [Option.map_some', Option.some.injEq] at he1
  have hvw : (v + dUp n v u) % n = u := add_dUp hv hu
  have hstep : ((v + (dUp n v u + 1 - 1 - 1)) % n + 1) % n = u := by
    rw [mod_cancel_left, show v + (dUp n v u + 1 - 1 - 1) + 1 = v + dUp n v u by omega, hvw]
  rw [← he1, mod_cancel_left] at hstep
  have hu0 : (u + 0) % n = (u + 2) % n := by
    rw [hstep, Nat.add_zero, Nat.mod_eq_of_lt hu]
  have := mod_shift_inj (by omega : 0 < n) (by omega : 2 < n) hu0
  omega

/-- On the cycle, a valid path enumerator returns exactly the two arcs, in
one of the two orders. -/
theorem sp_cycle_eq {n u v : Nat} (hn : 3 ≤ n) (hu : u < n) (hv : v < n) (huv : u ≠ v)
    {sp : NXGraph → Nat → Nat → List (List Nat)} (hsp : SpValid sp (cycleGraph n) n) :
    sp (cycleGraph n) u v = [arcU n u v, arcD n u v] ∨
      sp (cycleGraph n) u v = [arcD n u v, arcU n u v] := by
  obtain ⟨hmem, hnd, _⟩ := hsp u v hu hv huv
  refine nodup_pair_ext hnd (fun p => ?_) (arcU_ne_arcD hn hu hv huv)
  rw [hmem p, cycle_path_iff hn hu hv huv]

/-- `collectLoop` on exactly two paths. -/
theorem pidOf_two (P Q : List Nat) :
    pidOf [P, Q] =
      if Q.length = P.length then ([P, Q], ([] : List (List Nat)))
      else if Q.length = P.length + 1 then ([P], [Q])
      else ([P], []) := by
  unfold pidOf collectLoop
  split_ifs with h1 h2 <;> simp [collectLoop]

/-- Membership of the increasing arc's entries in the opposite arc: only the
two endpoints are shared. -/
theorem arc_mem_arc_iff {n u v : Nat} (hn : 3 ≤ n) (hu : u < n) (hv : v < n)
    (huv : u ≠ v) {k : Nat} (hk : k ≤ dUp n u v) :
    (u + k) % n ∈ arc n v (dUp n v u) ↔ k = 0 ∨ k = dUp n u v := by
  have hsum : dUp n u v + dUp n v u = n := dUp_add hu hv huv
  have hdU : 0 < dUp n u v := dUp_pos hu hv huv
  have hdD : 0 < dUp n v u := dUp_pos hv hu (Ne.symm huv)
  constructor
  · intro hmem
    unfold arc at hmem
    simp only [List.mem_map, List.mem_range] at hmem
    obtain ⟨j, hj, hje⟩ := hmem
    have hvu : (u + dUp n u v) % n = v := add_dUp hu hv
    rw [← hvu, mod_cancel_left,
      show u + dUp n u v + j = u + (dUp n u v + j) by omega] at hje
    have hcase := mod_shift_inj_le (n := n) (u := u) (by omega) (by omega) hje
    rcases hcase with heq | ⟨_, h0⟩
    · right; omega
    · left; exact h0
  · rintro (rfl | rfl)
    · unfold arc
      simp only [List.mem_map, List.mem_range]
      exact ⟨dUp n v u, by omega, by
        rw [add_dUp hv hu, Nat.add_zero, Nat.mod_eq_of_lt hu]⟩
    · unfold arc
      simp only [List.mem_map, List.mem_range]
      refine ⟨0, by omega, ?_⟩
      rw [Nat.add_zero, Nat.mod_eq_of_lt hv]
      exact (add_dUp hu hv).symm

/-- The filter of one arc by membership in the other keeps exactly the two
endpoints. -/
theorem filter_arc_two {n u v : Nat} (hn : 3 ≤ n) (hu : u < n) (hv : v < n)
    (huv : u ≠ v) :
    ((arc n u (dUp n u v)).filter
        (fun x => decide (x ∈ arc n v (dUp n v u)))).length = 2 := by
  have hdU : 0 < dUp n u v := dUp_pos hu hv huv
  have hstep : (arc n u (dUp n u v)).filter (fun x => decide (x ∈ arc n v (dUp n v u))) =
      ((List.range (dUp n u v + 1)).filter
        ((fun x => decide (x ∈ arc n v (dUp n v u))) ∘ (fun k => (u + k) % n))).map
        (fun k => (u + k) % n) := by
    conv_lhs => rw [show arc n u (dUp n u v) =
      (List.range (dUp n u v + 1)).map (fun k => (u + k) % n) from rfl]
    exact List.map_filter _ _
  rw [hstep, List.length_map]
  have hcongr : (List.range (dUp n u v + 1)).filter
      ((fun x => decide (x ∈ arc n v (dUp n v u))) ∘ (fun k => (u + k) % n)) =
      (List.range (dUp n u v + 1)).filter
      (fun k => decide (k = 0 ∨ k = dUp n u v)) := by
    refine List.filter_congr (fun k hk => ?_)
    simp only [List.mem_range] at hk
    simp only [Function.comp_apply, decide_eq_decide]
    exact arc_mem_arc_iff hn hu hv huv (by omega)
  rw [hcongr]
  rw [List.range_succ, List.filter_append]
  have h1 : (List.range (dUp n u v)).filter (fun k => decide (k = 0 ∨ k = dUp n u v)) = [0] := by
    obtain ⟨m, hm⟩ : ∃ m, dUp n u v = m + 1 := ⟨dUp n u v - 1, by omega⟩
    rw [hm, List.range_succ_eq_map, List.filter_cons]
    have h2 : List.filter (fun k => decide (k = 0 ∨ k = m + 1))
        (List.map Nat.succ (List.range m)) = [] := by
      refine List.filter_eq_nil_iff.mpr (fun a ha => ?_)
      simp only [List.mem_map, List.mem_range] at ha
      obtain ⟨b, hb, rfl⟩ := ha
      simp only [decide_eq_true_eq, not_or]
      omega
    simp [h2]
    omega
  rw [h1]
  simp

/-- `len(set(c1).intersection(c2)) == 2` for the two arcs, in both orders. -/
theorem setInter_arcU_arcD {n u v : Nat} (hn : 3 ≤ n) (hu : u < n) (hv : v < n)
    (huv : u ≠ v) : setInterSize (arcU n u v) (arcD n u v) = 2 := by
  unfold setInterSize
  have hndU : (arcU n u v).Nodup := by
    unfold arcU
    exact arc_nodup u (dUp_lt (by omega) u v)
  rw [List.dedup_eq_self.mpr hndU]
  have hcongr : (arcU n u v).filter (fun x => (arcD n u v).contains x) =
      (arcU n u v).filter (fun x => decide (x ∈ arc n v (dUp n v u))) := by
    refine List.filter_congr (fun x _ => ?_)
    show ((arcD n u v).elem x) = _
    rw [List.elem_eq_mem]
    simp only [decide_eq_decide]
    unfold arcD
    exact List.mem_reverse
  rw [hcongr]
  exact filter_arc_two hn hu hv huv

theorem setInter_arcD_arcU {n u v : Nat} (hn : 3 ≤ n) (hu : u < n) (hv : v < n)
    (huv : u ≠ v) : setInterSize (arcD n u v) (arcU n u v) = 2 := by
  unfold setInterSize
  have hnd : (arcD n u v).Nodup := by
    unfold arcD
    rw [List.nodup_reverse]
    exact arc_nodup v (dUp_lt (by omega) v u)
  rw [List.dedup_eq_self.mpr hnd]
  have hcongr : (arcD n u v).filter (fun x => (arcU n u v).contains x) =
      (arcD n u v).filter (fun x => decide (x ∈ arc n u (dUp n u v))) := by
    refine List.filter_congr (fun x _ => ?_)
    show ((arcU n u v).elem x) = _
    rw [List.elem_eq_mem]
    rfl
  rw [hcongr]
  show (((arc n v (dUp n v u)).reverse).filter _).length = 2
  rw [List.filter_reverse, List.length_reverse]
  exact filter_arc_two hn hv hu (Ne.symm huv)

theorem pyInterior_reverse (l : List Nat) : pyInterior l.reverse = (l.dropLast).tail := by
  unfold pyInterior
  rw [List.drop_one, List.tail_reverse, List.dropLast_reverse, List.reverse_reverse]

theorem dropLast_range (d : Nat) : (List.range (d + 1)).dropLast = List.range d := by
  rw [List.range_succ, List.dropLast_concat]

theorem pyInterior_arcD {n u v : Nat} (hdD : 0 < dUp n v u) :
    pyInterior (arcD n u v) =
      (List.range (dUp n v u - 1)).map (fun j => (v + (j + 1)) % n) := by
  unfold arcD
  rw [pyInterior_reverse]
  unfold arc
  rw [← List.map_dropLast, dropLast_range, ← List.map_tail]
  obtain ⟨m, hm⟩ : ∃ m, dUp n v u = m + 1 := ⟨dUp n v u - 1, by omega⟩
  rw [hm, List.range_succ_eq_map]
  simp only [List.tail_cons, List.map_map, Nat.add_sub_cancel]
  rfl

/-- Closing an odd ring with `c1` the increasing arc: the result is the full
cycle starting at `u` and increasing. -/
theorem ring_up {n u v : Nat} (hn : 3 ≤ n) (hu : u < n) (hv : v < n) (huv : u ≠ v) :
    arcU n u v ++ pyInterior (arcD n u v) = (List.range n).map (fun k => (u + k) % n) := by
  have hsum := dUp_add hu hv huv
  have hdU := dUp_pos hu hv huv
  have hdD := dUp_pos hv hu (Ne.symm huv)
  rw [pyInterior_arcD hdD]
  have hsplit : List.range n =
      List.range (dUp n u v + 1) ++ (List.range (dUp n v u - 1)).map ((dUp n u v + 1) + ·) := by
    rw [← List.range_add]
    congr 1
    omega
  rw [hsplit, List.map_append]
  congr 1
  rw [List.map_map]
  refine List.map_congr_left (fun j _ => ?_)
  show (v + (j + 1)) % n = (u + (dUp n u v + 1 + j)) % n
  calc (v + (j + 1)) % n = ((u + dUp n u v) % n + (j + 1)) % n := by
        rw [add_dUp hu hv]
    _ = (u + dUp n u v + (j + 1)) % n := mod_cancel_left _ _ _
    _ = (u + (dUp n u v + 1 + j)) % n := by
        congr 1
        omega

/-- Closing an odd ring with `c1` the decreasing arc: the result is the full
cycle starting at `u` and decreasing. -/
theorem ring_down {n u v : Nat} (hn : 3 ≤ n) (hu : u < n) (hv : v < n) (huv : u ≠ v) :
    arcD n u v ++ pyInterior (arcU n u v) =
      ((List.range n).map (fun k => (u + 1 + k) % n)).reverse := by
  have hsum := dUp_add hu hv huv
  have hdU := dUp_pos hu hv huv
  have hdD := dUp_pos hv hu (Ne.symm huv)
  have hcore : ((arcU n u v).drop 1).dropLast =
      (List.range (dUp n u v - 1)).map (fun k => (u + (k + 1)) % n) := by
    obtain ⟨m, hm⟩ : ∃ m, dUp n u v = m + 1 := ⟨dUp n u v - 1, by omega⟩
    show (((List.range (dUp n u v + 1)).map (fun k => (u + k) % n)).drop 1).dropLast = _
    rw [hm, Nat.add_sub_cancel, List.drop_one, ← List.map_tail, List.range_succ_eq_map]
    simp only [List.tail_cons]
    rw [List.map_map, ← List.map_dropLast, dropLast_range]
    rfl
  have hY : pyInterior (arcU n u v) =
      ((List.range (dUp n u v - 1)).map (fun k => (u + (k + 1)) % n)).reverse := by
    unfold pyInterior
    rw [List.drop_one] at hcore ⊢
    rw [hcore]
  rw [hY]
  show (arc n v (dUp n v u)).reverse ++ _ = _
  rw [← List.reverse_append]
  congr 1
  have hsplit : List.range n =
      List.range (dUp n u v - 1) ++ (List.range (dUp n v u + 1)).map ((dUp n u v - 1) + ·) := by
    rw [← List.range_add]
    congr 1
    omega
  rw [hsplit, List.map_append]
  congr 1
  · refine List.map_congr_left (fun k _ => ?_)
    show (u + (k + 1)) % n = (u + 1 + k) % n
    congr 1
    omega
  · unfold arc
    rw [List.map_map]
    refine List.map_congr_left (fun j _ => ?_)
    show (v + j) % n = (u + 1 + (dUp n u v - 1 + j)) % n
    calc (v + j) % n = ((u + dUp n u v) % n + j) % n := by
          rw [add_dUp hu hv]
      _ = (u + dUp n u v + j) % n := mod_cancel_left _ _ _
      _ = (u + 1 + (dUp n u v - 1 + j)) % n := by
          congr 1
          omega

/-- The property C1 demands of the produced ring: a duplicate-free list of
exactly the `n` atoms `0, …, n-1`. -/
def IsFullRing (n : Nat) (c : List Nat) : Prop :=
  c.Nodup ∧ c.length = n ∧ ∀ a, a ∈ c ↔ a < n

theorem fullRing_map {n x : Nat} (hn : 0 < n) (hx : x < n) :
    IsFullRing n ((List.range n).map (fun k => (x + k) % n)) := by
  refine ⟨?_, by simp, ?_⟩
  · have harc : (List.range n).map (fun k => (x + k) % n) = arc n x (n - 1) := by
      unfold arc
      rw [show n - 1 + 1 = n by omega]
    rw [harc]
    exact arc_nodup x (by omega)
  · intro a
    simp only [List.mem_map, List.mem_range]
    constructor
    · rintro ⟨k, hk, rfl⟩
      exact Nat.mod_lt _ hn
    · intro ha
      exact ⟨dUp n x a, dUp_lt hn x a, add_dUp hx ha⟩

theorem fullRing_reverse {n : Nat} {c : List Nat} (h : IsFullRing n c) :
    IsFullRing n c.reverse := by
  obtain ⟨h1, h2, h3⟩ := h
  exact ⟨by rwa [List.nodup_reverse], by rwa [List.length_reverse],
    fun a => by rw [List.mem_reverse]; exact h3 a⟩

theorem fullRing_up {n u v : Nat} (hn : 3 ≤ n) (hu : u < n) (hv : v < n) (huv : u ≠ v) :
    IsFullRing n (arcU n u v ++ pyInterior (arcD n u v)) := by
  rw [ring_up hn hu hv huv]
  exact fullRing_map (by omega) hu

theorem fullRing_down {n u v : Nat} (hn : 3 ≤ n) (hu : u < n) (hv : v < n) (huv : u ≠ v) :
    IsFullRing n (arcD n u v ++ pyInterior (arcU n u v)) := by
  rw [ring_down hn hu hv huv]
  refine fullRing_reverse ?_
  have hc : (List.range n).map (fun k => (u + 1 + k) % n) =
      (List.range n).map (fun k => ((u + 1) % n + k) % n) := by
    refine List.map_congr_left (fun k _ => ?_)
    rw [mod_cancel_left]
  rw [hc]
  exact fullRing_map (by omega) (Nat.mod_lt _ (by omega))

theorem addRing_one (c : List Nat) : addRing 1 (0, []) c = Sum.inr [c] := by
  unfold addRing
  simp

theorem closeOdd_first (c1 c2 : List Nat) (rest : List (List Nat))
    (h : setInterSize c1 c2 = 2) :
    closeOdd 1 c1 (0, []) (c2 :: rest) = Sum.inr [c1 ++ pyInterior c2] := by
  unfold closeOdd
  rw [if_pos h, addRing_one]

theorem closeEven_first (c1 c2 : List Nat) (rest : List (List Nat × List Nat))
    (h : setInterSize c1 c2 = 2) :
    closeEven 1 (0, []) ((c1, c2) :: rest) = Sum.inr [c1 ++ pyInterior c2] := by
  unfold closeEven
  rw [if_pos h, addRing_one]

theorem processCand_odd (m : Nat) (hm : m % 2 = 1) (P Q : List Nat)
    (h : setInterSize P Q = 2) :
    processCand 1 (0, []) (m, [P], [Q]) = Sum.inr [P ++ pyInterior Q] := by
  unfold processCand
  rw [if_pos hm]
  exact closeOdd_first P Q [] h

theorem processCand_even (m : Nat) (hm : ¬ m % 2 = 1) (P Q : List Nat)
    (h : setInterSize P Q = 2) :
    processCand 1 (0, []) (m, [P, Q], []) = Sum.inr [P ++ pyInterior Q] := by
  unfold processCand
  rw [if_neg hm]
  exact closeEven_first P Q [] h

/-- A candidate whose processing (against target ring count 1 and the empty
state) immediately returns a single full ring. -/
def GoodCand (n : Nat) (c : Cand) : Prop :=
  ∃ ring, processCand 1 (0, []) c = Sum.inr [ring] ∧ IsFullRing n ring

/-- Every candidate produced by a valid pair of cycle nodes is good. -/
theorem pair_cand_good {n u v : Nat} {sp : NXGraph → Nat → Nat → List (List Nat)}
    (hn : 3 ≤ n) (hu : u < n) (hv : v < n) (huv : u ≠ v)
    (hsp : SpValid sp (cycleGraph n) n) :
    ∀ c, candOf ((u, v), pidOf (sp (cycleGraph n) u v)) = some c → GoodCand n c := by
  intro c hc
  obtain ⟨_, _, hsort⟩ := hsp u v hu hv huv
  rcases sp_cycle_eq hn hu hv huv hsp with hS | hS
  · rw [hS] at hc
    rw [pidOf_two, arcU_length, arcD_length] at hc
    by_cases h1 : dUp n v u + 1 = dUp n u v + 1
    · rw [if_pos h1] at hc
      unfold candOf at hc
      rw [if_neg (by simp)] at hc
      rw [if_pos rfl] at hc
      simp only [List.headD_cons] at hc
      obtain rfl := Option.some.inj hc
      refine ⟨arcU n u v ++ pyInterior (arcD n u v), ?_, fullRing_up hn hu hv huv⟩
      exact processCand_even _ (by omega) _ _ (setInter_arcU_arcD hn hu hv huv)
    · by_cases h2 : dUp n v u + 1 = dUp n u v + 1 + 1
      · rw [if_neg h1, if_pos h2] at hc
        unfold candOf at hc
        rw [if_neg (by simp)] at hc
        rw [if_neg (by simp)] at hc
        simp only [List.headD_cons] at hc
        obtain rfl := Option.some.inj hc
        refine ⟨arcU n u v ++ pyInterior (arcD n u v), ?_, fullRing_up hn hu hv huv⟩
        exact processCand_odd _ (by omega) _ _ (setInter_arcU_arcD hn hu hv huv)
      · rw [if_neg h1, if_neg h2] at hc
        unfold candOf at hc
        rw [if_pos (by simp)] at hc
        cases hc
  · rw [hS] at hc
    rw [pidOf_two, arcU_length, arcD_length] at hc
    by_cases h1 : dUp n u v + 1 = dUp n v u + 1
    · rw [if_pos h1] at hc
      unfold candOf at hc
      rw [if_neg (by simp)] at hc
      rw [if_pos rfl] at hc
      simp only [List.headD_cons] at hc
      obtain rfl := Option.some.inj hc
      refine ⟨arcD n u v ++ pyInterior (arcU n u v), ?_, fullRing_down hn hu hv huv⟩
      exact processCand_even _ (by omega) _ _ (setInter_arcD_arcU hn hu hv huv)
    · by_cases h2 : dUp n u v + 1 = dUp n v u + 1 + 1
      · rw [if_neg h1, if_pos h2] at hc
        unfold candOf at hc
        rw [if_neg (by simp)] at hc
        rw [if_neg (by simp)] at hc
        simp only [List.headD_cons] at hc
        obtain rfl := Option.some.inj hc
        refine ⟨arcD n u v ++ pyInterior (arcU n u v), ?_, fullRing_down hn hu hv huv⟩
        exact processCand_odd _ (by omega) _ _ (setInter_arcD_arcU hn hu hv huv)
      · rw [if_neg h1, if_neg h2] at hc
        unfold candOf at hc
        rw [if_pos (by simp)] at hc
        cases hc

/-- A near-antipodal pair always produces a candidate. -/
theorem pair_cand_exists {n u v : Nat} {sp : NXGraph → Nat → Nat → List (List Nat)}
    (hn : 3 ≤ n) (hu : u < n) (hv : v < n) (huv : u ≠ v)
    (hsp : SpValid sp (cycleGraph n) n)
    (hc1 : dUp n v u ≤ dUp n u v + 1) (hc2 : dUp n u v ≤ dUp n v u + 1) :
    ∃ c, candOf ((u, v), pidOf (sp (cycleGraph n) u v)) = some c := by
  obtain ⟨_, _, hsort⟩ := hsp u v hu hv huv
  rcases sp_cycle_eq hn hu hv huv hsp with hS | hS
  · rw [hS] at hsort ⊢
    have hle : dUp n u v ≤ dUp n v u := by
      have hp := (List.pairwise_cons.mp hsort).1 (arcD n u v) (by simp)
      rw [arcU_length, arcD_length] at hp
      omega
    rw [pidOf_two, arcU_length, arcD_length]
    by_cases h1 : dUp n v u + 1 = dUp n u v + 1
    · rw [if_pos h1]
      exact ⟨_, by unfold candOf; rw [if_neg (by simp), if_pos rfl]⟩
    · have h2 : dUp n v u + 1 = dUp n u v + 1 + 1 := by omega
      rw [if_neg h1, if_pos h2]
      exact ⟨_, by unfold candOf; rw [if_neg (by simp), if_neg (by simp)]⟩
  · rw [hS] at hsort ⊢
    have hle : dUp n v u ≤ dUp n u v := by
      have hp := (List.pairwise_cons.mp hsort).1 (arcU n u v) (by simp)
      rw [arcU_length, arcD_length] at hp
      omega
    rw [pidOf_two, arcU_length, arcD_length]
    by_cases h1 : dUp n u v + 1 = dUp n v u + 1
    · rw [if_pos h1]
      exact ⟨_, by unfold candOf; rw [if_neg (by simp), if_pos rfl]⟩
    · have h2 : dUp n u v + 1 = dUp n v u + 1 + 1 := by omega
      rw [if_neg h1, if_pos h2]
      exact ⟨_, by unfold candOf; rw [if_neg (by simp), if_neg (by simp)]⟩

theorem combinations2_mem {α : Type} {l : List α} {x y : α}
    (h : (x, y) ∈ combinations2 l) : x ∈ l ∧ y ∈ l := by
  induction l with
  | nil => cases h
  | cons a t ih =>
    simp only [combinations2, List.mem_append, List.mem_map] at h
    rcases h with ⟨z, hz, hzz⟩ | h2
    · obtain ⟨rfl, rfl⟩ : a = x ∧ z = y := by
        have := Prod.mk.injEq a z x y ▸ hzz
        exact ⟨this.1, this.2⟩
      exact ⟨List.mem_cons_self _ _, List.mem_cons_of_mem _ hz⟩
    · obtain ⟨h3, h4⟩ := ih h2
      exact ⟨List.mem_cons_of_mem _ h3, List.mem_cons_of_mem _ h4⟩

theorem combinations2_ne {α : Type} {l : List α} (hnd : l.Nodup) {x y : α}
    (h : (x, y) ∈ combinations2 l) : x ≠ y := by
  induction l with
  | nil => cases h
  | cons a t ih =>
    simp only [combinations2, List.mem_append, List.mem_map] at h
    rcases h with ⟨z, hz, hzz⟩ | h2
    · obtain ⟨rfl, rfl⟩ : a = x ∧ z = y := by
        have := Prod.mk.injEq a z x y ▸ hzz
        exact ⟨this.1, this.2⟩
      intro he
      exact (List.nodup_cons.mp hnd).1 (he ▸ hz)
    · exact ih (List.nodup_cons.mp hnd).2 h2

theorem pair_mem_combos {n : Nat} (hn : 3 ≤ n) :
    ((0 : Nat), n / 2) ∈ combinations2 (List.range n) := by
  obtain ⟨m, rfl⟩ : ∃ m, n = m + 1 := ⟨n - 1, by omega⟩
  rw [List.range_succ_eq_map]
  simp only [combinations2, List.mem_append, List.mem_map]
  left
  refine ⟨(m + 1) / 2, ?_, rfl⟩
  simp only [List.mem_map, List.mem_range]
  exact ⟨(m + 1) / 2 - 1, by omega, by omega⟩

theorem buildPid_ok {n : Nat} {sp : NXGraph → Nat → Nat → List (List Nat)}
    (hn : 3 ≤ n) (hsp : SpValid sp (cycleGraph n) n) :
    ∀ (l : List (Nat × Nat)),
      (∀ ij ∈ l, ij.1 < n ∧ ij.2 < n ∧ ij.1 ≠ ij.2) →
      buildPid sp (cycleGraph n) l =
        Except.ok (l.map (fun ij => (ij, pidOf (sp (cycleGraph n) ij.1 ij.2))))
  | [], _ => rfl
  | ij :: rest, hl => by
    obtain ⟨hu, hv, huv⟩ := hl ij (List.mem_cons_self _ _)
    have hne : sp (cycleGraph n) ij.1 ij.2 ≠ [] := by
      intro h0
      have hmem := ((hsp ij.1 ij.2 hu hv huv).1 (arcU n ij.1 ij.2)).mpr
        (arcU_isPath hn hu hv)
      rw [h0] at hmem
      cases hmem
    have ih := buildPid_ok hn hsp rest (fun x hx => hl x (List.mem_cons_of_mem _ hx))
    cases hS : sp (cycleGraph n) ij.1 ij.2 with
    | nil => exact absurd hS hne
    | cons p ps =>
      unfold buildPid
      rw [hS, ih]
      simp [pidOf, hS]

/-- `cycSP` satisfies the path-enumerator contract on `cycleGraph n`. -/
theorem cycSP_valid (n : Nat) (hn : 3 ≤ n) : SpValid (cycSP n) (cycleGraph n) n := by
  intro u v hu hv huv
  have hne := arcU_ne_arcD hn hu hv huv
  unfold cycSP
  split_ifs with hif
  · refine ⟨fun p => ?_, by simp [hne], ?_⟩
    · rw [cycle_path_iff hn hu hv huv]
      simp
    · refine List.pairwise_cons.mpr ⟨?_, by simp⟩
      intro b hb
      simp only [List.mem_singleton] at hb
      subst hb
      rw [arcU_length, arcD_length]
      omega
  · refine ⟨fun p => ?_, by simp [Ne.symm hne], ?_⟩
    · rw [cycle_path_iff hn hu hv huv]
      simp
      tauto
    · refine List.pairwise_cons.mpr ⟨?_, by simp⟩
      intro b hb
      simp only [List.mem_singleton] at hb
      subst hb
      rw [arcU_length, arcD_length]
      omega

/-- **C1.**  On the single simple cycle of `n ≥ 3` atoms, `find_sssr` run
with any path enumerator satisfying the `shortest_simple_paths` contract
returns exactly one ring, and that ring contains all `n` atoms (it is a
duplicate-free list of exactly the atoms `0, …, n-1`). -/
theorem find_sssr_cycle (n : Nat) (hn : 3 ≤ n)
    (sp : NXGraph → Nat → Nat → List (List Nat)) (hsp : SpValid sp (cycleGraph n) n) :
    ∃ c, find_sssr sp (cycleGraph n) = Except.ok (some [c]) ∧
      c.Nodup ∧ c.length = n ∧ ∀ a, a ∈ c ↔ a < n := by
  have hnodes : (cycleGraph n).nodes = List.range n := rfl
  have hedgeslen : (cycleGraph n).edges.length = n := by simp [cycleGraph]
  have hnodeslen : (cycleGraph n).nodes.length = n := by simp [cycleGraph]
  have hcomb : ∀ ij ∈ combinations2 (cycleGraph n).nodes,
      ij.1 < n ∧ ij.2 < n ∧ ij.1 ≠ ij.2 := by
    intro ij hij
    rw [hnodes] at hij
    obtain ⟨x, y⟩ := ij
    obtain ⟨hx, hy⟩ := combinations2_mem hij
    simp only [List.mem_range] at hx hy
    exact ⟨hx, hy, combinations2_ne (List.nodup_range n) hij⟩
  have hbuild := buildPid_ok hn hsp (combinations2 (cycleGraph n).nodes) hcomb
  set pid := (combinations2 (cycleGraph n).nodes).map
    (fun ij => (ij, pidOf (sp (cycleGraph n) ij.1 ij.2))) with hpid
  have hgood : ∀ c ∈ candSet pid, GoodCand n c := by
    intro c hc
    unfold candSet at hc
    rw [List.mem_filterMap] at hc
    obtain ⟨e, he, hce⟩ := hc
    rw [hpid, List.mem_map] at he
    obtain ⟨ij, hij, rfl⟩ := he
    obtain ⟨hu, hv, huv⟩ := hcomb ij hij
    exact pair_cand_good hn hu hv huv hsp c hce
  have hex : ∃ c0, c0 ∈ candSet pid := by
    have h0n : (0 : Nat) < n := by omega
    have hvn : n / 2 < n := by omega
    have hne0 : (0 : Nat) ≠ n / 2 := by omega
    have hd1 : dUp n 0 (n / 2) = n / 2 := by
      rw [dUp_spec h0n hvn, if_pos (by omega)]
      omega
    have hd2 : dUp n (n / 2) 0 = n - n / 2 := by
      rw [dUp_spec hvn h0n, if_neg (by omega)]
      omega
    obtain ⟨c0, hc0⟩ := pair_cand_exists hn h0n hvn hne0 hsp
      (by rw [hd1, hd2]; omega) (by rw [hd1, hd2]; omega)
    refine ⟨c0, ?_⟩
    unfold candSet
    rw [List.mem_filterMap]
    refine ⟨((0, n / 2), pidOf (sp (cycleGraph n) 0 (n / 2))), ?_, hc0⟩
    rw [hpid, List.mem_map]
    exact ⟨(0, n / 2), by rw [hnodes]; exact pair_mem_combos hn, rfl⟩
  obtain ⟨c0, hc0mem⟩ := hex
  have hperm : ((candSet pid).mergeSort candLe).Perm (candSet pid) :=
    List.mergeSort_perm _ _
  have hsne : (candSet pid).mergeSort candLe ≠ [] := by
    intro h0
    have hlen := hperm.length_eq
    rw [h0] at hlen
    have hemp : candSet pid = [] := List.length_eq_zero.mp hlen.symm
    rw [hemp] at hc0mem
    cases hc0mem
  obtain ⟨chead, rest, hsorteq⟩ := List.exists_cons_of_ne_nil hsne
  have hheadmem : chead ∈ candSet pid :=
    hperm.mem_iff.mp (by rw [hsorteq]; exact List.mem_cons_self _ _)
  obtain ⟨ring, hring, hfull⟩ := hgood chead hheadmem
  refine ⟨ring, ?_, hfull.1, hfull.2.1, hfull.2.2⟩
  have hns : ((cycleGraph n).edges.length : Int) - ((cycleGraph n).nodes.length : Int) + 1
      = 1 := by
    rw [hedgeslen, hnodeslen]
    ring
  unfold find_sssr
  rw [hns, if_neg (by norm_num : (1 : Int) ≠ 0), hbuild]
  show Except.ok (processAll 1 ((candSet pid).mergeSort candLe) (0, [])) = _
  rw [hsorteq]
  unfold processAll
  rw [hring]

/-- Witness instantiation for C1: the 5-cycle with the concrete enumerator
`cycSP 5`. -/
theorem find_sssr_cycle_witness :
    ∃ c, find_sssr (cycSP 5) (cycleGraph 5) = Except.ok (some [c]) ∧
      c.Nodup ∧ c.length = 5 ∧ ∀ a, a ∈ c ↔ a < 5 :=
  find_sssr_cycle 5 (by norm_num) (cycSP 5) (cycSP_valid 5 (by norm_num))

end SSSR

/-! ## Python attribute values

Node/edge attributes in CGRtools are Python dicts mapping string keys to
scalars (ints, strings, `None`), pairs (the `sp_*` dynamic marks), lists
(template alternatives) or dicts (conditional patch values).  `Base` covers
the scalars, `Prim` the hashable values usable inside lists and as dict
keys, and `Val` the full attribute values. -/

inductive Base : Type
  | none
  | int (i : Int)
  | str (s : String)
deriving DecidableEq, Repr

inductive Prim : Type
  | base (b : Base)
  | pair (a b : Base)
deriving DecidableEq, Repr

inductive Val : Type
  | prim (p : Prim)
  | list (xs : List Prim)
  | dict (xs : List (Prim × Prim))
deriving DecidableEq, Repr

/-- The Python value `None` as an attribute value. -/
def Val.pyNone : Val := Val.prim (Prim.base Base.none)

/-- A Python int as an attribute value. -/
def Val.int (i : Int) : Val := Val.prim (Prim.base (Base.int i))

/-- A Python str as an attribute value. -/
def Val.str (s : String) : Val := Val.prim (Prim.base (Base.str s))

def Val.isDict : Val → Bool
  | Val.dict _ => true
  | _ => false

namespace Reactor

/-- `CGRreactor.__list_eq` (reactor.py lines 216-218):
`True if b is None else a in b if isinstance(b, list) else a == b`,
where `a` is the target's attribute value and `b` the pattern's. -/
def list_eq (a b : Val) : Bool :=
  if b = Val.pyNone then true
  else
    match b with
    | Val.list xs =>
      match a with
      | Val.prim p => xs.contains p
      | _ => false
    | _ => a == b

/-- **C4.** Attribute comparison semantics of the isomorphism matcher: an
unset (`None`) pattern value matches any target value; a list-valued
pattern value matches exactly the targets that are members of the list;
any other pattern value matches exactly the equal target value. -/
theorem list_eq_semantics (a b : Val) :
    (b = Val.pyNone → list_eq a b = true) ∧
    (∀ xs, b = Val.list xs → (list_eq a b = true ↔ ∃ p ∈ xs, a = Val.prim p)) ∧
    (b ≠ Val.pyNone → (∀ xs, b ≠ Val.list xs) → (list_eq a b = true ↔ a = b)) := by
  refine ⟨?_, ?_, ?_⟩
  · intro h
    simp [list_eq, h]
  · intro xs hb
    subst hb
    unfold list_eq
    rw [if_neg (by simp [Val.pyNone])]
    cases a with
    | prim p =>
      rw [List.elem_iff]
      constructor
      · intro hp
        exact ⟨p, hp, rfl⟩
      · rintro ⟨q, hq, he⟩
        cases he
        exact hq
    | list ys => simp
    | dict d => simp
  · intro hnone hlist
    unfold list_eq
    rw [if_neg hnone]
    cases b with
    | prim p => simp
    | list xs => exact absurd rfl (hlist xs)
    | dict d => simp

end Reactor

namespace Reactor

/-- Witness for C4 at a concrete input: an unset pattern value matches. -/
theorem list_eq_semantics_witness :
    list_eq (Val.int 1) Val.pyNone = true :=
  (list_eq_semantics (Val.int 1) Val.pyNone).1 rfl

/-! ## The template searcher (C3)

`CGRreactor.get_template_searcher` (reactor.py lines 92-109).  The
subgraph-isomorphism enumeration (`networkx.GraphMatcher(g, i.pattern)
.subgraph_isomorphisms_iter()`) is an external collaborator: it is embedded
as the parameter `iso`, returning for each pattern the list of mappings
from matched target atoms to pattern atoms (dicts keyed by target atoms,
as `networkx` yields them).  The `MatchContainer` patch construction
(`__remap_group(i.patch, g, inverted j)[0]`) is embedded as the parameter
`remap`. -/

structure CGRTemplate (π β μ : Type) where
  pattern : π
  patch : β
  meta : μ

structure MatchContainer (ν β μ : Type) where
  mapping : List (ν × ν)
  patch : β
  meta : μ

/-- `set(j)`: the matched target atoms (keys of the mapping dict). -/
def matchedAtoms {ν : Type} [DecidableEq ν] (j : List (ν × ν)) : Finset ν :=
  (j.map Prod.fst).toFinset

/-- The inner `for j in gm.subgraph_isomorphisms_iter()` loop for one
template (lines 99-107), threading the `found` set and the yielded
matches. -/
def searchTemplate {ν π β μ : Type} [DecidableEq ν] (skip : Bool)
    (remap : β → List (ν × ν) → β) (t : CGRTemplate π β μ)
    (cands : List (List (ν × ν)))
    (st : Finset ν × List (MatchContainer ν β μ)) :
    Finset ν × List (MatchContainer ν β μ) :=
  cands.foldl (fun st j =>
    let atoms := matchedAtoms j
    if skip then
      if (st.1 ∩ atoms).Nonempty then st
      else (st.1 ∪ atoms, st.2 ++ [⟨j, remap t.patch j, t.meta⟩])
    else (st.1, st.2 ++ [⟨j, remap t.patch j, t.meta⟩])) st

/-- The searcher returned by `get_template_searcher`, fully consumed: the
list of matches it yields for a target graph, in order. -/
def template_searcher {ν π β μ : Type} [DecidableEq ν]
    (iso : π → List (List (ν × ν))) (remap : β → List (ν × ν) → β)
    (templates : List (CGRTemplate π β μ)) (skip_intersection : Bool) :
    List (MatchContainer ν β μ) :=
  (templates.foldl
    (fun st t => searchTemplate skip_intersection remap t (iso t.pattern) st)
    (∅, [])).2

/-- The invariant threaded through the search with overlap suppression: the
yielded matches are pairwise atom-disjoint and all their atoms are in the
`found` set. -/
def SearchInv {ν β μ : Type} [DecidableEq ν]
    (st : Finset ν × List (MatchContainer ν β μ)) : Prop :=
  st.2.Pairwise (fun m1 m2 => matchedAtoms m1.mapping ∩ matchedAtoms m2.mapping = ∅) ∧
    ∀ m ∈ st.2, matchedAtoms m.mapping ⊆ st.1

theorem searchTemplate_inv {ν π β μ : Type} [DecidableEq ν]
    (remap : β → List (ν × ν) → β) (t : CGRTemplate π β μ) :
    ∀ (cands : List (List (ν × ν))) (st : Finset ν × List (MatchContainer ν β μ)),
      SearchInv st → SearchInv (searchTemplate true remap t cands st)
  | [], st, h => h
  | j :: rest, st, h => by
    have hstep : SearchInv (
        if ((st.1 ∩ matchedAtoms j).Nonempty) then st
        else (st.1 ∪ matchedAtoms j, st.2 ++ [⟨j, remap t.patch j, t.meta⟩])) := by
      split_ifs with hint
      · exact h
      · obtain ⟨hpw, hsub⟩ := h
        constructor
        · rw [List.pairwise_append]
          refine ⟨hpw, List.pairwise_singleton _ _, ?_⟩
          intro m1 hm1 m2 hm2
          simp only [List.mem_singleton] at hm2
          subst hm2
          have h1 : matchedAtoms m1.mapping ⊆ st.1 := hsub m1 hm1
          have h2 : st.1 ∩ matchedAtoms j = ∅ :=
            Finset.not_nonempty_iff_eq_empty.mp hint
          have := Finset.inter_subset_inter h1 (Finset.Subset.refl (matchedAtoms j))
          rw [h2] at this
          exact Finset.subset_empty.mp this
        · intro m hm
          rw [List.mem_append] at hm
          rcases hm with hm | hm
          · exact (hsub m hm).trans (Finset.subset_union_left)
          · simp only [List.mem_singleton] at hm
            subst hm
            exact Finset.subset_union_right
    have hrec := searchTemplate_inv remap t rest _ hstep
    unfold searchTemplate at hrec ⊢
    rw [List.foldl_cons]
    simp only at hrec ⊢
    convert hrec using 2

theorem template_searcher_inv {ν π β μ : Type} [DecidableEq ν]
    (iso : π → List (List (ν × ν))) (remap : β → List (ν × ν) → β) :
    ∀ (templates : List (CGRTemplate π β μ))
      (st : Finset ν × List (MatchContainer ν β μ)), SearchInv st →
      SearchInv (templates.foldl
        (fun st t => searchTemplate true remap t (iso t.pattern) st) st)
  | [], _, h => h
  | t :: rest, st, h => by
    rw [List.foldl_cons]
    exact template_searcher_inv iso remap rest _ (searchTemplate_inv remap t _ _ h)

/-- **C3.**  With overlap suppression enabled (`skip_intersection=True`),
the template searcher never yields two matches whose sets of matched
target atoms intersect: the yielded matches are pairwise atom-disjoint. -/
theorem template_searcher_disjoint {ν π β μ : Type} [DecidableEq ν]
    (iso : π → List (List (ν × ν))) (remap : β → List (ν × ν) → β)
    (templates : List (CGRTemplate π β μ)) :
    (template_searcher iso remap templates true).Pairwise
      (fun m1 m2 => matchedAtoms m1.mapping ∩ matchedAtoms m2.mapping = ∅) := by
  have h := template_searcher_inv iso remap templates (∅, [])
    ⟨List.Pairwise.nil, by intro m hm; cases hm⟩
  exact h.1

/-- Witness for C3 at concrete inputs: two overlapping and one disjoint
candidate mapping; the yielded matches are pairwise disjoint. -/
theorem template_searcher_disjoint_witness :
    (template_searcher (ν := Nat) (π := Unit) (β := Unit) (μ := Unit)
        (fun _ => [[(1, 10)], [(1, 11)], [(2, 12)]]) (fun _ _ => ())
        [⟨(), (), ()⟩] true).Pairwise
      (fun m1 m2 => matchedAtoms m1.mapping ∩ matchedAtoms m2.mapping = ∅) :=
  template_searcher_disjoint (fun _ => [[(1, 10)], [(1, 11)], [(2, 12)]])
    (fun _ _ => ()) [⟨(), (), ()⟩]

end Reactor

/-! ## Attribute dictionaries and the `networkx.Graph` model

CGRtools containers subclass `networkx.Graph`: a graph is its node list
(insertion ordered, each node with an attribute dict), its undirected edge
list (each edge stored once with an attribute dict; `(m, n)` and `(n, m)`
address the same edge) and the graph-level metadata dict. -/

abbrev Attrs := List (String × Val)

/-- Python dict lookup on an association list (keys assumed unique). -/
def alLookup {κ ω : Type} [DecidableEq κ] (d : List (κ × ω)) (k : κ) : Option ω :=
  (d.find? (fun kv => decide (kv.1 = k))).map (·.2)

/-- Python `dict.update`: existing keys keep their position and take the
new value; new keys are appended in the update's order. -/
def dictUpdate {κ ω : Type} [DecidableEq κ] (old new : List (κ × ω)) : List (κ × ω) :=
  (old.map (fun kv => (kv.1, (alLookup new kv.1).getD kv.2))) ++
    new.filter (fun kv => (alLookup old kv.1).isNone)

structure AGraph (ν : Type) where
  nodes : List (ν × Attrs)
  edges : List (ν × ν × Attrs)
  meta : List (String × Val)
deriving DecidableEq, Repr

namespace AGraph

variable {ν : Type} [DecidableEq ν]

def nodeIds (g : AGraph ν) : List ν := g.nodes.map (·.1)

def hasNode (g : AGraph ν) (i : ν) : Bool := (nodeIds g).contains i

/-- `networkx.Graph.add_node(i, **attrs)`: insert, or update the attribute
dict of an existing node. -/
def add_node (g : AGraph ν) (i : ν) (attrs : Attrs) : AGraph ν :=
  if hasNode g i then
    { g with nodes := g.nodes.map (fun na =>
        if na.1 = i then (na.1, dictUpdate na.2 attrs) else na) }
  else { g with nodes := g.nodes ++ [(i, attrs)] }

def edgeMatches (m n : ν) (e : ν × ν × Attrs) : Bool :=
  decide ((e.1 = m ∧ e.2.1 = n) ∨ (e.1 = n ∧ e.2.1 = m))

/-- The attribute dict of the undirected edge between `m` and `n`. -/
def edgeLookup (g : AGraph ν) (m n : ν) : Option Attrs :=
  (g.edges.find? (edgeMatches m n)).map (·.2.2)

def hasEdge (g : AGraph ν) (m n : ν) : Bool := (edgeLookup g m n).isSome

/-- `networkx.Graph.add_edge(m, n, **attrs)`: update an existing edge's
attribute dict, or append the edge (inserting missing endpoints). -/
def add_edge (g : AGraph ν) (m n : ν) (attrs : Attrs) : AGraph ν :=
  if hasEdge g m n then
    { g with edges := g.edges.map (fun e =>
        if edgeMatches m n e then (e.1, e.2.1, dictUpdate e.2.2 attrs) else e) }
  else
    let g1 := if hasNode g m then g else { g with nodes := g.nodes ++ [(m, [])] }
    let g2 := if hasNode g1 n then g1 else { g1 with nodes := g1.nodes ++ [(n, [])] }
    { g2 with edges := g2.edges ++ [(m, n, attrs)] }

/-- `networkx.Graph.remove_edge` (and the per-edge step of
`remove_edges_from`, which ignores absent edges). -/
def removeEdge (g : AGraph ν) (m n : ν) : AGraph ν :=
  { g with edges := g.edges.filter (fun e => ¬ edgeMatches m n e) }

def removeEdgesFrom (g : AGraph ν) (pairs : List (ν × ν)) : AGraph ν :=
  pairs.foldl (fun g p => removeEdge g p.1 p.2) g

def addNodesFrom (g : AGraph ν) (ns : List (ν × Attrs)) : AGraph ν :=
  ns.foldl (fun g na => add_node g na.1 na.2) g

def addEdgesFrom (g : AGraph ν) (es : List (ν × ν × Attrs)) : AGraph ν :=
  es.foldl (fun g e => add_edge g e.1 e.2.1 e.2.2) g

/-- The attribute `x` of node `i` (`g.nodes[i][x]`). -/
def nodeAttr (g : AGraph ν) (i : ν) (x : String) : Option Val :=
  ((g.nodes.find? (fun na => decide (na.1 = i))).map (·.2)).bind (fun a => alLookup a x)

/-- The attribute `x` of the edge between `m` and `n` (`g[m][n][x]`). -/
def edgeAttr (g : AGraph ν) (m n : ν) (x : String) : Option Val :=
  (edgeLookup g m n).bind (fun a => alLookup a x)

end AGraph

/-- `networkx.compose(G, H)` (networkx 2.x): fresh graph; nodes and node
attributes from `G` then `H` (attributes from `H` take precedence per key),
likewise edges; graph-level attributes merged with `H` winning. -/
def composeNX {ν : Type} [DecidableEq ν] (G H : AGraph ν) : AGraph ν :=
  let R : AGraph ν := ⟨[], [], dictUpdate G.meta H.meta⟩
  AGraph.addEdgesFrom
    (AGraph.addEdgesFrom
      (AGraph.addNodesFrom (AGraph.addNodesFrom R G.nodes) H.nodes)
      G.edges)
    H.edges

namespace Container

/-! ## `CGRContainer` operations (containers/cgr.py)

Atom identifiers are Python ints (`Int`).  Coordinates are only stored and
copied by these operations, never computed with; they are embedded as
`Int`-valued attribute values.  The periodic table (`elements`, external
static data) and the charge/radical admissibility check
(`MoleculeContainer._check_charge_radical` composed with `_radical_map`,
repository code not present under `src/`) are parameters of the
embedding. -/

inductive PyErr : Type
  | invalidData (msg : String)
  | invalidAtom (msg : String)
  | invalidStereo (msg : String)
  | keyError (msg : String)
deriving DecidableEq, Repr

/-- Python `max(iterable, default=d)`. -/
def pyMax (l : List Int) (d : Int) : Int :=
  match l with
  | [] => d
  | x :: xs => xs.foldl max x

/-- Python truthiness of an optional int (`None` and `0` are falsy). -/
def truthyOpt (o : Option Int) : Bool :=
  match o with
  | none => false
  | some v => decide (v ≠ 0)

/-- `s_radical not in (None, 1, 2, 3)` (negated). -/
def radValid (o : Option Int) : Bool :=
  decide (o = none ∨ o = some 1 ∨ o = some 2 ∨ o = some 3)

/-- The keyword-argument dict passed to `add_node` on line 91-93 of
`add_atom` (product-side charge and coordinates already defaulted to the
reagent side by the `p_x = s_x if p_x is None else p_x` lines). -/
def baseAttrs (element : String) (s_charge : Int) (p_charge : Option Int) (mark : String)
    (s_x s_y s_z : Int) (p_x p_y p_z : Option Int) (m : Int) : Attrs :=
  [("element", Val.str element), ("s_charge", Val.int s_charge),
   ("p_charge", Val.int (p_charge.getD s_charge)), ("mark", Val.str mark),
   ("s_x", Val.int s_x), ("s_y", Val.int s_y), ("s_z", Val.int s_z),
   ("p_x", Val.int (p_x.getD s_x)), ("p_y", Val.int (p_y.getD s_y)),
   ("p_z", Val.int (p_z.getD s_z)), ("map", Val.int m)]

/-- Lines 91-97 of `add_atom`: the `add_node` call storing the attribute
dict (with the product-side charge and coordinates already defaulted to
the reagent side), followed by the conditional storing of the radical
marks (`if s_radical: ...`, `if p_radical: ...`). -/
def add_atom_store (g : AGraph Int) (element : String) (s_charge : Int)
    (p_charge : Option Int) (s_radical p_radical : Option Int) (mark : String)
    (s_x s_y s_z : Int) (p_x p_y p_z : Option Int) (m : Int) : AGraph Int :=
  let g1 := AGraph.add_node g m
    (baseAttrs element s_charge p_charge mark s_x s_y s_z p_x p_y p_z m)
  let g2 := if truthyOpt s_radical then
      AGraph.add_node g1 m [("s_radical", Val.int (s_radical.getD 0))] else g1
  if truthyOpt p_radical then
    AGraph.add_node g2 m [("p_radical", Val.int (p_radical.getD 0))] else g2

/-- Lines 75-100 of `add_atom`: the radical validation, the product-side
defaulting, the charge/radical admissibility check and the node insertion,
for an already-resolved map number `m`. -/
def add_atom_rest (checkCR : String → Int → Option Int → Bool) (g : AGraph Int)
    (element : String) (s_charge : Int) (p_charge : Option Int)
    (s_radical p_radical : Option Int) (mark : String)
    (s_x s_y s_z : Int) (p_x p_y p_z : Option Int) (m : Int) :
    Except PyErr (AGraph Int × Int) :=
  if ¬ (radValid s_radical ∧ radValid p_radical) then
    Except.error (PyErr.invalidData "only monovalent (2), bivalent (1 singlet, 3 triplet) or None accepted")
  else if ¬ (checkCR element s_charge s_radical ∧
      checkCR element (p_charge.getD s_charge) p_radical) then
    Except.error (PyErr.invalidData "charge and/or radical values impossible for this element")
  else
    Except.ok (add_atom_store g element s_charge p_charge s_radical p_radical mark
      s_x s_y s_z p_x p_y p_z m, m)

/-- `CGRContainer.add_atom` (cgr.py lines 54-100).  `flush_cache`
(derived-data invalidation) has no observable effect on the stored graph
and is not modelled. -/
def add_atom (elements : List String) (checkCR : String → Int → Option Int → Bool)
    (g : AGraph Int) (element : String) (s_charge : Int) (p_charge : Option Int)
    (s_radical p_radical : Option Int) (map? : Option Int) (mark : String)
    (s_x s_y s_z : Int) (p_x p_y p_z : Option Int) :
    Except PyErr (AGraph Int × Int) :=
  if ¬ elements.contains element then
    Except.error (PyErr.invalidData "element not exists")
  else
    match map? with
    | none =>
      add_atom_rest checkCR g element s_charge p_charge s_radical p_radical mark
        s_x s_y s_z p_x p_y p_z (pyMax (AGraph.nodeIds g) 0 + 1)
    | some m =>
      if (AGraph.nodeIds g).contains m then
        Except.error (PyErr.invalidData "mapping exists")
      else
        add_atom_rest checkCR g element s_charge p_charge s_radical p_radical mark
          s_x s_y s_z p_x p_y p_z m

theorem foldl_max_le (xs : List Int) (a : Int) :
    a ≤ xs.foldl max a ∧ ∀ x ∈ xs, x ≤ xs.foldl max a := by
  induction xs generalizing a with
  | nil => exact ⟨le_refl a, by intro x hx; cases hx⟩
  | cons y ys ih =>
    obtain ⟨h1, h2⟩ := ih (max a y)
    refine ⟨le_trans (le_max_left a y) h1, ?_⟩
    intro x hx
    rcases List.mem_cons.mp hx with rfl | hx
    · exact le_trans (le_max_right a x) h1
    · exact h2 x hx

theorem pyMax_ge (l : List Int) (d : Int) : ∀ x ∈ l, x ≤ pyMax l d := by
  intro x hx
  cases l with
  | nil => cases hx
  | cons y ys =>
    rcases List.mem_cons.mp hx with rfl | hx
    · exact (foldl_max_le ys x).1
    · exact (foldl_max_le ys y).2 x hx

theorem pyMax_ge_default (l : List Int) (d : Int) (h : ∀ x ∈ l, d ≤ x) :
    d ≤ pyMax l d := by
  cases l with
  | nil => exact le_refl d
  | cons y ys => exact le_trans (h y (List.mem_cons_self _ _)) ((foldl_max_le ys y).1)

theorem add_atom_rest_snd {checkCR g element s_charge p_charge s_radical p_radical mark
    s_x s_y s_z p_x p_y p_z m g2 m2}
    (h : add_atom_rest checkCR g element s_charge p_charge s_radical p_radical mark
      s_x s_y s_z p_x p_y p_z m = Except.ok (g2, m2)) : m2 = m := by
  unfold add_atom_rest at h
  split_ifs at h
  all_goals cases h <;> rfl

theorem alLookup_append {κ ω : Type} [DecidableEq κ] (a b : List (κ × ω)) (k : κ) :
    alLookup (a ++ b) k = (alLookup a k).or (alLookup b k) := by
  unfold alLookup
  rw [List.find?_append]
  cases a.find? (fun kv => decide (kv.1 = k)) <;> simp

theorem alLookup_keyMap {κ ω : Type} [DecidableEq κ] (d : List (κ × ω))
    (f : κ × ω → ω) (k : κ) :
    alLookup (d.map (fun kv => (kv.1, f kv))) k = (d.find? (fun kv => decide (kv.1 = k))).map f := by
  unfold alLookup
  rw [List.find?_map]
  have hc : ((fun kv : κ × ω => decide (kv.1 = k)) ∘ (fun kv => (kv.1, f kv))) =
      (fun kv : κ × ω => decide (kv.1 = k)) := by
    funext kv
    rfl
  rw [hc]
  cases d.find? (fun kv => decide (kv.1 = k)) <;> simp

theorem alLookup_filter_keep {κ ω : Type} [DecidableEq κ] (d : List (κ × ω))
    (p : κ × ω → Bool) (k : κ) (h : ∀ kv ∈ d, kv.1 = k → p kv = true) :
    alLookup (d.filter p) k = alLookup d k := by
  induction d with
  | nil => rfl
  | cons kv rest ih =>
    have hstep : alLookup (rest.filter p) k = alLookup rest k :=
      ih (fun kv2 h2 => h kv2 (List.mem_cons_of_mem _ h2))
    rw [List.filter_cons]
    by_cases hk : kv.1 = k
    · rw [if_pos (h kv (List.mem_cons_self _ _) hk)]
      simp [alLookup, List.find?_cons, hk]
    · have hdec : (decide (kv.1 = k)) = false := by simp [hk]
      split_ifs with hp
      · unfold alLookup at hstep ⊢
        rw [List.find?_cons, List.find?_cons, hdec]
        exact hstep
      · rw [hstep]
        unfold alLookup
        rw [List.find?_cons, hdec]

/-- The lookup characterization of Python `dict.update`. -/
theorem alLookup_dictUpdate {κ ω : Type} [DecidableEq κ] (d new : List (κ × ω)) (k : κ) :
    alLookup (dictUpdate d new) k =
      match alLookup d k with
      | some v => some ((alLookup new k).getD v)
      | none => alLookup new k := by
  unfold dictUpdate
  rw [alLookup_append, alLookup_keyMap]
  cases hd : alLookup d k with
  | some v =>
    have : d.find? (fun kv => decide (kv.1 = k)) = some (k, v) := by
      unfold alLookup at hd
      cases hfind : d.find? (fun kv => decide (kv.1 = k)) with
      | none => rw [hfind] at hd; cases hd
      | some kv =>
        rw [hfind] at hd
        have hkey : kv.1 = k := by
          have := List.find?_some hfind
          simpa using this
        simp only [Option.map_some', Option.some.injEq] at hd
        obtain ⟨k1, v1⟩ := kv
        simp only at hkey hd
        rw [hkey, hd]
    rw [this]
    simp
  | none =>
    have : d.find? (fun kv => decide (kv.1 = k)) = none := by
      unfold alLookup at hd
      cases hfind : d.find? (fun kv => decide (kv.1 = k)) with
      | none => rfl
      | some kv => rw [hfind] at hd; cases hd
    rw [this]
    simp only [Option.map_none', Option.none_or]
    refine alLookup_filter_keep _ _ _ (fun kv hkv hk => ?_)
    have : alLookup d kv.1 = none := hk ▸ hd
    rw [this]
    rfl

theorem alLookup_dictUpdate_single_ne {ω : Type} (d : List (String × ω)) (k0 k : String)
    (v0 : ω) (hk : alLookup [(k0, v0)] k = (none : Option ω)) :
    alLookup (dictUpdate d [(k0, v0)]) k = alLookup d k := by
  rw [alLookup_dictUpdate]
  cases alLookup d k <;> simp [hk]

theorem findNode_add_fresh {ν : Type} [DecidableEq ν] (g : AGraph ν) (i : ν) (attrs : Attrs)
    (h : AGraph.hasNode g i = false) :
    (AGraph.add_node g i attrs).nodes.find? (fun na => decide (na.1 = i)) = some (i, attrs) := by
  unfold AGraph.add_node
  rw [if_neg (by simp [h])]
  simp only
  rw [List.find?_append]
  have h1 : g.nodes.find? (fun na => decide (na.1 = i)) = none := by
    rw [List.find?_eq_none]
    intro na hna
    simp only [decide_eq_true_eq]
    intro he
    have hmem : i ∈ g.nodes.map (·.1) := List.mem_map.mpr ⟨na, hna, he⟩
    have hh : (g.nodes.map (·.1)).contains i = true := List.elem_iff.mpr hmem
    unfold AGraph.hasNode AGraph.nodeIds at h
    rw [h] at hh
    cases hh
  rw [h1]
  simp [List.find?_cons]

theorem findMap_update {ν : Type} [DecidableEq ν] (i : ν) (new : Attrs) :
    ∀ (l : List (ν × Attrs)) (cur : Attrs),
      l.find? (fun na => decide (na.1 = i)) = some (i, cur) →
      (l.map (fun na => if na.1 = i then (na.1, dictUpdate na.2 new) else na)).find?
          (fun na => decide (na.1 = i)) = some (i, dictUpdate cur new)
  | [], cur, h => by cases h
  | (a, attrs) :: rest, cur, h => by
    by_cases hna : a = i
    · subst hna
      rw [List.find?_cons_of_pos _ (by simp)] at h
      obtain rfl : attrs = cur := by simpa using h
      rw [List.map_cons]
      rw [show (if ((a, attrs) : ν × Attrs).1 = a then ((a, attrs).1, dictUpdate (a, attrs).2 new)
          else (a, attrs)) = (a, dictUpdate attrs new) by simp]
      exact List.find?_cons_of_pos _ (by simp)
    · rw [List.find?_cons_of_neg _ (by simp [hna])] at h
      rw [List.map_cons]
      rw [show (if ((a, attrs) : ν × Attrs).1 = i then ((a, attrs).1, dictUpdate (a, attrs).2 new)
          else (a, attrs)) = (a, attrs) by simp [hna]]
      rw [List.find?_cons_of_neg _ (by simp [hna])]
      exact findMap_update i new rest cur h

theorem findNode_add_update {ν : Type} [DecidableEq ν] (g : AGraph ν) (i : ν)
    (new cur : Attrs)
    (h : g.nodes.find? (fun na => decide (na.1 = i)) = some (i, cur)) :
    (AGraph.add_node g i new).nodes.find? (fun na => decide (na.1 = i)) =
      some (i, dictUpdate cur new) := by
  have hhas : AGraph.hasNode g i = true := by
    unfold AGraph.hasNode AGraph.nodeIds
    refine List.elem_iff.mpr ?_
    exact List.mem_map.mpr ⟨(i, cur), List.mem_of_find?_eq_some h, rfl⟩
  unfold AGraph.add_node
  rw [if_pos hhas]
  exact findMap_update i new g.nodes cur h

theorem contains_eq_false {α : Type} [DecidableEq α] (l : List α) (a : α) (h : a ∉ l) :
    l.contains a = false := by
  cases hc : l.contains a
  · rfl
  · exact absurd (List.elem_iff.mp hc) h

theorem add_atom_rest_ok {checkCR g element s_charge p_charge s_radical p_radical mark
    s_x s_y s_z p_x p_y p_z m g2 m2}
    (h : add_atom_rest checkCR g element s_charge p_charge s_radical p_radical mark
      s_x s_y s_z p_x p_y p_z m = Except.ok (g2, m2)) :
    g2 = add_atom_store g element s_charge p_charge s_radical p_radical mark
      s_x s_y s_z p_x p_y p_z m ∧ m2 = m := by
  unfold add_atom_rest at h
  split_ifs at h
  all_goals cases h <;> exact ⟨rfl, rfl⟩

theorem add_atom_ok {elements checkCR g element s_charge p_charge s_radical p_radical
    map? mark s_x s_y s_z p_x p_y p_z g2 m2}
    (h : add_atom elements checkCR g element s_charge p_charge s_radical p_radical
      map? mark s_x s_y s_z p_x p_y p_z = Except.ok (g2, m2)) :
    g2 = add_atom_store g element s_charge p_charge s_radical p_radical mark
      s_x s_y s_z p_x p_y p_z m2 ∧
    AGraph.hasNode g m2 = false := by
  unfold add_atom at h
  by_cases hel : elements.contains element
  · rw [if_neg (not_not_intro hel)] at h
    cases map? with
    | none =>
      obtain ⟨hg, hm⟩ := add_atom_rest_ok h
      subst hm
      refine ⟨hg, ?_⟩
      unfold AGraph.hasNode
      apply contains_eq_false
      intro hmem
      have := pyMax_ge (AGraph.nodeIds g) 0 _ hmem
      omega
    | some m =>
      dsimp only at h
      by_cases hc : (AGraph.nodeIds g).contains m = true
      · rw [if_pos hc] at h
        cases h
      · rw [if_neg hc] at h
        obtain ⟨hg, hm⟩ := add_atom_rest_ok h
        subst hm
        refine ⟨hg, ?_⟩
        unfold AGraph.hasNode
        simp only [Bool.not_eq_true] at hc
        exact hc
  · rw [if_pos hel] at h
    cases h

/-- C7: on success `add_atom` never returns an identifier already present,
and a supplied colliding identifier is always rejected with the "mapping
exists" error; but the returned identifier is only guaranteed positive for
auto-assigned numbers over graphs whose existing identifiers are
non-negative — a caller-supplied `_map` is not checked for positivity
(see the counterexample `add_atom_nonpositive_id_cex`). -/
theorem add_atom_id_spec
    (elements : List String) (checkCR : String → Int → Option Int → Bool)
    (g : AGraph Int) (element : String) (s_charge : Int) (p_charge : Option Int)
    (s_radical p_radical : Option Int) (map? : Option Int) (mark : String)
    (s_x s_y s_z : Int) (p_x p_y p_z : Option Int) :
    (∀ g2 m2, add_atom elements checkCR g element s_charge p_charge s_radical p_radical
        map? mark s_x s_y s_z p_x p_y p_z = Except.ok (g2, m2) →
      (AGraph.nodeIds g).contains m2 = false) ∧
    (map? = none → (∀ x ∈ AGraph.nodeIds g, 0 ≤ x) →
      ∀ g2 m2, add_atom elements checkCR g element s_charge p_charge s_radical p_radical
        map? mark s_x s_y s_z p_x p_y p_z = Except.ok (g2, m2) → 0 < m2) ∧
    (∀ m, map? = some m → (AGraph.nodeIds g).contains m = true →
      elements.contains element = true →
      add_atom elements checkCR g element s_charge p_charge s_radical p_radical
        map? mark s_x s_y s_z p_x p_y p_z =
        Except.error (PyErr.invalidData "mapping exists")) := by
  refine ⟨?_, ?_, ?_⟩
  · intro g2 m2 h
    exact (add_atom_ok h).2
  · intro hmap hpos g2 m2 h
    subst hmap
    unfold add_atom at h
    by_cases hel : elements.contains element
    · rw [if_neg (not_not_intro hel)] at h
      have hm := add_atom_rest_snd h
      have h0 : (0 : Int) ≤ pyMax (AGraph.nodeIds g) 0 := by
        cases hl : AGraph.nodeIds g with
        | nil => exact le_refl 0
        | cons y ys =>
          have hy : (0 : Int) ≤ y := hpos y (by rw [hl]; exact List.mem_cons_self _ _)
          have hfold := (foldl_max_le ys y).1
          calc (0 : Int) ≤ y := hy
            _ ≤ ys.foldl max y := hfold
      omega
    · rw [if_pos hel] at h
      cases h
  · intro m hmap hc hel
    subst hmap
    unfold add_atom
    rw [if_neg (not_not_intro hel)]
    dsimp only
    rw [if_pos hc]

theorem add_atom_id_spec_witness :
    add_atom ["C"] (fun _ _ _ => true) (⟨[(1, [])], [], []⟩ : AGraph Int) "C" 0 none
        none none (some 1) "0" 0 0 0 none none none =
      Except.error (PyErr.invalidData "mapping exists") :=
  (add_atom_id_spec ["C"] (fun _ _ _ => true) ⟨[(1, [])], [], []⟩ "C" 0 none
      none none (some 1) "0" 0 0 0 none none none).2.2 1 rfl rfl rfl

/-- C7 counterexample: supplying `_map = 0` on an empty graph succeeds and
the stored map number is `0`, which is not positive — the code only checks
collision, never positivity, of a caller-supplied identifier. -/
theorem add_atom_nonpositive_id_cex :
    (add_atom ["C"] (fun _ _ _ => true) (⟨[], [], []⟩ : AGraph Int) "C" 0 none
        none none (some 0) "0" 0 0 0 none none none).toOption.map (·.2) = some 0 := rfl

/-- C8: on a successful `add_atom` call with the product-side charge and
all product-side coordinates omitted, the stored `p_charge`/`p_x`/`p_y`/
`p_z` equal the reagent-side values; but an omitted product radical is NOT
defaulted to the reagent radical — no `p_radical` attribute is stored at
all (see the counterexample `add_atom_p_radical_cex`). -/
theorem add_atom_product_defaults
    (elements : List String) (checkCR : String → Int → Option Int → Bool)
    (g : AGraph Int) (element : String) (s_charge : Int)
    (s_radical : Option Int) (map? : Option Int) (mark : String)
    (s_x s_y s_z : Int) (g2 : AGraph Int) (m2 : Int)
    (h : add_atom elements checkCR g element s_charge none s_radical none map? mark
      s_x s_y s_z none none none = Except.ok (g2, m2)) :
    AGraph.nodeAttr g2 m2 "p_charge" = some (Val.int s_charge) ∧
    AGraph.nodeAttr g2 m2 "p_x" = some (Val.int s_x) ∧
    AGraph.nodeAttr g2 m2 "p_y" = some (Val.int s_y) ∧
    AGraph.nodeAttr g2 m2 "p_z" = some (Val.int s_z) ∧
    AGraph.nodeAttr g2 m2 "p_radical" = none := by
  obtain ⟨rfl, hfresh⟩ := add_atom_ok h
  have hb := findNode_add_fresh g m2
    (baseAttrs element s_charge none mark s_x s_y s_z none none none m2) hfresh
  by_cases hs : truthyOpt s_radical = true
  · have hstore : add_atom_store g element s_charge none s_radical none mark
        s_x s_y s_z none none none m2 =
        AGraph.add_node
          (AGraph.add_node g m2
            (baseAttrs element s_charge none mark s_x s_y s_z none none none m2))
          m2 [("s_radical", Val.int (s_radical.getD 0))] := by
      simp only [add_atom_store]
      rw [if_neg (by simp [truthyOpt]), if_pos hs]
    rw [hstore]
    have hupd := findNode_add_update
      (AGraph.add_node g m2
        (baseAttrs element s_charge none mark s_x s_y s_z none none none m2))
      m2 [("s_radical", Val.int (s_radical.getD 0))]
      (baseAttrs element s_charge none mark s_x s_y s_z none none none m2) hb
    refine ⟨?_, ?_, ?_, ?_, ?_⟩ <;>
      (unfold AGraph.nodeAttr
       rw [hupd]
       rw [Option.map_some', Option.some_bind, alLookup_dictUpdate]
       simp [alLookup, baseAttrs, List.find?])
  · have hstore : add_atom_store g element s_charge none s_radical none mark
        s_x s_y s_z none none none m2 =
        AGraph.add_node g m2
          (baseAttrs element s_charge none mark s_x s_y s_z none none none m2) := by
      simp only [add_atom_store]
      rw [if_neg (by simp [truthyOpt]), if_neg hs]
    rw [hstore]
    refine ⟨?_, ?_, ?_, ?_, ?_⟩ <;>
      (unfold AGraph.nodeAttr
       rw [hb]
       rw [Option.map_some', Option.some_bind]
       simp [alLookup, baseAttrs, List.find?])

theorem add_atom_product_defaults_witness :
    AGraph.nodeAttr (add_atom_store (⟨[], [], []⟩ : AGraph Int) "C" 5 none (some 2) none
        "0" 7 8 9 none none none 1) 1 "p_charge" = some (Val.int 5) ∧
    AGraph.nodeAttr (add_atom_store (⟨[], [], []⟩ : AGraph Int) "C" 5 none (some 2) none
        "0" 7 8 9 none none none 1) 1 "p_x" = some (Val.int 7) ∧
    AGraph.nodeAttr (add_atom_store (⟨[], [], []⟩ : AGraph Int) "C" 5 none (some 2) none
        "0" 7 8 9 none none none 1) 1 "p_y" = some (Val.int 8) ∧
    AGraph.nodeAttr (add_atom_store (⟨[], [], []⟩ : AGraph Int) "C" 5 none (some 2) none
        "0" 7 8 9 none none none 1) 1 "p_z" = some (Val.int 9) ∧
    AGraph.nodeAttr (add_atom_store (⟨[], [], []⟩ : AGraph Int) "C" 5 none (some 2) none
        "0" 7 8 9 none none none 1) 1 "p_radical" = none :=
  add_atom_product_defaults ["C"] (fun _ _ _ => true) ⟨[], [], []⟩ "C" 5 (some 2)
    (some 1) "0" 7 8 9
    (add_atom_store ⟨[], [], []⟩ "C" 5 none (some 2) none "0" 7 8 9 none none none 1)
    1 rfl

/-- C8 counterexample: a successful call with `s_radical = 2` and
`p_radical` omitted stores `s_radical = 2` and no `p_radical` attribute —
the product radical is not defaulted to the reagent radical. -/
theorem add_atom_p_radical_cex :
    (add_atom ["C"] (fun _ _ _ => true) (⟨[], [], []⟩ : AGraph Int) "C" 0 none (some 2)
        none none "0" 0 0 0 none none none).toOption.map
      (fun gm => (AGraph.nodeAttr gm.1 gm.2 "s_radical",
        AGraph.nodeAttr gm.1 gm.2 "p_radical")) =
      some (some (Val.int 2), none) := rfl

/-- `s_mark not in (1, 2, 3, 4, 9, None)` (negated). -/
def markValid (o : Option Int) : Bool :=
  decide (o = some 1 ∨ o = some 2 ∨ o = some 3 ∨ o = some 4 ∨ o = some 9 ∨ o = none)

/-- `CGRContainer.add_bond` (cgr.py lines 102-125).  The valence check
`MoleculeContainer._check_bonding` (repository code not present under
`src/`, skipped whenever `ignore` is set or the mark is falsy) is a
parameter; `flush_cache` is not modelled. -/
def add_bond (checkB : Int → Int → Int → String → Except PyErr Unit)
    (g : AGraph Int) (atom1 atom2 : Int) (s_mark p_mark : Option Int)
    (ignore : Bool) : Except PyErr (AGraph Int) :=
  if AGraph.hasNode g atom1 = false ∨ AGraph.hasNode g atom2 = false then
    Except.error (PyErr.invalidData "atoms not found")
  else if AGraph.hasEdge g atom1 atom2 then
    Except.error (PyErr.invalidData "bond exists")
  else if truthyOpt s_mark = false ∧ truthyOpt p_mark = false then
    Except.error (PyErr.invalidData "empty bonds not allowed")
  else if ¬ markValid s_mark then
    Except.error (PyErr.invalidData "invalid bond mark")
  else
    match (if ignore = false ∧ truthyOpt s_mark = true then
        checkB atom1 atom2 (s_mark.getD 0) "s" else Except.ok ()) with
    | Except.error e => Except.error e
    | Except.ok _ =>
      if ¬ markValid p_mark then
        Except.error (PyErr.invalidData "invalid bond mark")
      else
        match (if ignore = false ∧ truthyOpt p_mark = true then
            checkB atom1 atom2 (p_mark.getD 0) "p" else Except.ok ()) with
        | Except.error e => Except.error e
        | Except.ok _ =>
          let g1 := if truthyOpt s_mark then
            AGraph.add_edge g atom1 atom2 [("s_bond", Val.int (s_mark.getD 0))] else g
          let g2 := if truthyOpt p_mark then
            AGraph.add_edge g1 atom1 atom2 [("p_bond", Val.int (p_mark.getD 0))] else g1
          Except.ok g2

theorem hasEdge_add_edge {ν : Type} [DecidableEq ν] (g : AGraph ν) (m n : ν)
    (attrs : Attrs) :
    AGraph.hasEdge (AGraph.add_edge g m n attrs) m n = true := by
  unfold AGraph.add_edge
  by_cases he : AGraph.hasEdge g m n = true
  · rw [if_pos he]
    unfold AGraph.hasEdge AGraph.edgeLookup at he ⊢
    dsimp only
    rw [List.find?_map]
    have hcomp : ((AGraph.edgeMatches m n) ∘ (fun e : ν × ν × Attrs =>
        if AGraph.edgeMatches m n e then (e.1, e.2.1, dictUpdate e.2.2 attrs) else e)) =
        AGraph.edgeMatches m n := by
      funext e
      by_cases hm : AGraph.edgeMatches m n e = true
      · simp only [Function.comp_apply, if_pos hm]
        unfold AGraph.edgeMatches at hm ⊢
        simpa using hm
      · simp only [Function.comp_apply, if_neg hm]
    rw [hcomp]
    cases hfind : g.edges.find? (AGraph.edgeMatches m n) with
    | none => rw [hfind] at he; simp at he
    | some e => rfl
  · rw [if_neg he]
    unfold AGraph.hasEdge AGraph.edgeLookup
    dsimp only
    rw [List.find?_append]
    have h2 : List.find? (AGraph.edgeMatches m n) [(m, n, attrs)] = some (m, n, attrs) :=
      List.find?_cons_of_pos _ (by simp [AGraph.edgeMatches])
    rw [h2]
    have hor : ∀ (x : Option (ν × ν × Attrs)),
        ((x.or (some (m, n, attrs))).map (·.2.2)).isSome = true := by
      intro x
      cases x <;> rfl
    exact hor _
/-- C9: `add_bond` performs NO check that the two atom identifiers are
distinct: on a graph containing atom `a` with no self-loop yet, calling it
with `atom1 = atom2 = a`, both marks `1` and `ignore` set succeeds and
stores a self-loop edge at `a` — contradicting the claim that equal
identifiers always fail (see the counterexample `add_bond_self_loop_cex`).
The only precondition checks are membership of both identifiers, absence
of the edge, non-emptiness and validity of the marks. -/
theorem add_bond_no_self_loop_check
    (checkB : Int → Int → Int → String → Except PyErr Unit)
    (g : AGraph Int) (a : Int)
    (h1 : AGraph.hasNode g a = true) (h2 : AGraph.hasEdge g a a = false) :
    ∃ g2, add_bond checkB g a a (some 1) (some 1) true = Except.ok g2 ∧
      AGraph.hasEdge g2 a a = true := by
  unfold add_bond
  rw [if_neg (by simp [h1]), if_neg (by simp [h2])]
  exact ⟨_, rfl, hasEdge_add_edge _ _ _ _⟩

theorem add_bond_no_self_loop_check_witness :
    ∃ g2, add_bond (fun _ _ _ _ => Except.ok ()) (⟨[(1, [])], [], []⟩ : AGraph Int) 1 1
        (some 1) (some 1) true = Except.ok g2 ∧ AGraph.hasEdge g2 1 1 = true :=
  add_bond_no_self_loop_check (fun _ _ _ _ => Except.ok ()) ⟨[(1, [])], [], []⟩ 1 rfl rfl

/-- C9 counterexample: `add_bond(1, 1, 1, 1, ignore=True)` on a one-atom
graph succeeds and the result contains the self-loop `1-1`. -/
theorem add_bond_self_loop_cex :
    (add_bond (fun _ _ _ _ => Except.ok ()) (⟨[(1, [])], [], []⟩ : AGraph Int) 1 1
        (some 1) (some 1) true).toOption.map (fun g2 => AGraph.hasEdge g2 1 1) =
      some true := rfl

/-- `s_mark not in (1, -1)` (negated). -/
def stereoMarkOk (o : Option Int) : Bool :=
  decide (o = some 1 ∨ o = some (-1))

/-- `CGRContainer.add_stereo` (cgr.py lines 127-166).  Lines 133-166 (the
existing-stereo, 3d-coordinate, implicit-hydrogen and tetrahedron checks)
depend on `MoleculeContainer.atom_implicit_h` and `_tetrahedron_parse`
(repository code not present under `src/`) and are the continuation
parameter `rest`; the two leading present-in-source checks (lines 128-131)
are embedded. -/
def add_stereo
    (rest : AGraph Int → Int → Int → Option Int → Option Int → Except PyErr (AGraph Int))
    (g : AGraph Int) (atom1 atom2 : Int) (s_mark p_mark : Option Int) :
    Except PyErr (AGraph Int) :=
  if ¬ stereoMarkOk s_mark ∧ ¬ stereoMarkOk p_mark then
    Except.error (PyErr.invalidData "stereo marks invalid")
  else if AGraph.hasEdge g atom1 atom2 = false then
    Except.error (PyErr.invalidAtom "atom or bond not found")
  else rest g atom1 atom2 s_mark p_mark

/-- C10: `add_stereo` raises the "stereo marks invalid" data-validation
error exactly when both `s_mark` and `p_mark` lie outside `{1, -1}`; if at
least one of them is in `{1, -1}` the call passes this validation —
regardless of the other mark's value — and proceeds to the bond-existence
check and the remaining (continuation) logic. -/
theorem add_stereo_mark_validation
    (rest : AGraph Int → Int → Int → Option Int → Option Int → Except PyErr (AGraph Int))
    (g : AGraph Int) (atom1 atom2 : Int) (s_mark p_mark : Option Int) :
    (stereoMarkOk s_mark = false ∧ stereoMarkOk p_mark = false →
      add_stereo rest g atom1 atom2 s_mark p_mark =
        Except.error (PyErr.invalidData "stereo marks invalid")) ∧
    (stereoMarkOk s_mark = true ∨ stereoMarkOk p_mark = true →
      add_stereo rest g atom1 atom2 s_mark p_mark =
        (if AGraph.hasEdge g atom1 atom2 = false then
          Except.error (PyErr.invalidAtom "atom or bond not found")
        else rest g atom1 atom2 s_mark p_mark)) := by
  constructor
  · intro h
    obtain ⟨hs, hp⟩ := h
    unfold add_stereo
    rw [if_pos ⟨by simp [hs], by simp [hp]⟩]
  · intro h
    unfold add_stereo
    rw [if_neg ?hcond]
    case hcond =>
      intro hc
      obtain ⟨ha, hb⟩ := hc
      rcases h with h | h
      · exact ha h
      · exact hb h

theorem add_stereo_mark_validation_witness :
    add_stereo (fun g _ _ _ _ => Except.ok g) (⟨[], [], []⟩ : AGraph Int) 1 2
        none (some 5) = Except.error (PyErr.invalidData "stereo marks invalid") ∧
    add_stereo (fun g _ _ _ _ => Except.ok g) (⟨[], [], []⟩ : AGraph Int) 1 2
        (some 1) (some 5) =
      (if AGraph.hasEdge (⟨[], [], []⟩ : AGraph Int) 1 2 = false then
        Except.error (PyErr.invalidAtom "atom or bond not found")
      else Except.ok ⟨[], [], []⟩) :=
  ⟨(add_stereo_mark_validation (fun g _ _ _ _ => Except.ok g) ⟨[], [], []⟩ 1 2
      none (some 5)).1 ⟨rfl, rfl⟩,
   (add_stereo_mark_validation (fun g _ _ _ _ => Except.ok g) ⟨[], [], []⟩ 1 2
      (some 1) (some 5)).2 (Or.inl rfl)⟩

end Container

namespace Reactor

/-! ## `CGRreactor.patcher` (reactor.py lines 281-308, C5)

`structure.fresh_copy()` is the empty graph of the same class;
`structure.copy()` is value copying, implicit in the functional embedding.
The conditional-value resolution `y[structure.nodes[i][x]]` is a Python
dict lookup keyed by the structure's current value and raises `KeyError`
when the key is absent, hence the `Option` result. -/

def node_marks (isCGR : Bool) : List String :=
  ["s_charge", "s_hyb", "s_neighbors", "s_stereo", "element", "map", "mark"] ++
    (if isCGR then ["p_charge", "p_hyb", "p_neighbors", "p_stereo"] else [])

def bond_marks (isCGR : Bool) : List String :=
  ["s_bond", "s_stereo"] ++ (if isCGR then ["p_bond", "p_stereo"] else [])

/-- `y[structure...[x]] if isinstance(y, dict) else y`: a dict-valued
patch attribute is resolved by looking the structure's current value up in
it; any other value is taken as is. -/
def resolveVal (sv : Option Val) (y : Val) : Option Val :=
  match y with
  | Val.dict xs =>
    match sv with
    | some (Val.prim p) =>
      (xs.find? (fun kv => decide (kv.1 = p))).map (fun kv => Val.prim kv.2)
    | _ => none
  | _ => some y

/-- The attribute-dict comprehension of `patcher`, applied after the
mark filter: resolves each value against the structure lookup `sv`. -/
def resolveAll (sv : String → Option Val) : List (String × Val) → Option (List (String × Val))
  | [] => some []
  | (x, y) :: rest =>
    match resolveVal (sv x) y with
    | none => none
    | some v => (resolveAll sv rest).map (fun r => (x, v) :: r)

def patchNodeStep (struc : AGraph Int) (nm : List String)
    (acc : Option (AGraph Int)) (na : Int × Attrs) : Option (AGraph Int) :=
  acc.bind (fun p =>
    (resolveAll (fun x => AGraph.nodeAttr struc na.1 x)
        (na.2.filter (fun kv => nm.contains kv.1))).map
      (fun attrs => AGraph.add_node p na.1 attrs))

def patchEdgeStep (struc : AGraph Int) (bm : List String)
    (acc : Option (AGraph Int)) (e : Int × Int × Attrs) : Option (AGraph Int) :=
  acc.bind (fun p =>
    (resolveAll (fun x => AGraph.edgeAttr struc e.1 e.2.1 x)
        (e.2.2.filter (fun kv => bm.contains kv.1))).map
      (fun attrs => AGraph.add_edge p e.1 e.2.1 attrs))

/-- `CGRreactor.patcher`: build the patch graph `p` on a fresh copy,
remove from (a copy of) the structure every edge joining two atoms common
to patch and structure, compose, and overwrite the metadata with the
structure's. -/
def patcher (isCGR : Bool) (struc patch : AGraph Int) : Option (AGraph Int) :=
  (patch.nodes.foldl (patchNodeStep struc (node_marks isCGR))
      (some (⟨[], [], []⟩ : AGraph Int))).bind
    (fun p0 =>
      (patch.edges.foldl (patchEdgeStep struc (bond_marks isCGR)) (some p0)).map
        (fun p =>
          let s := AGraph.removeEdgesFrom struc
            (SSSR.combinations2
              ((AGraph.nodeIds patch).filter (fun i => AGraph.hasNode struc i)))
          let out := composeNX s p
          { out with meta := dictUpdate out.meta struc.meta }))

/-- No edge of `g` joins `m` and `n`. -/
def NoEdge (g : AGraph Int) (m n : Int) : Prop :=
  ∀ e ∈ g.edges, AGraph.edgeMatches m n e = false

theorem edgeLookup_eq_none {g : AGraph Int} {m n : Int} (h : NoEdge g m n) :
    AGraph.edgeLookup g m n = none := by
  unfold AGraph.edgeLookup
  have hf : g.edges.find? (AGraph.edgeMatches m n) = none :=
    List.find?_eq_none.mpr (fun e he => by simp [h e he])
  rw [hf]
  rfl

theorem edges_add_node {ν : Type} [DecidableEq ν] (g : AGraph ν) (i : ν) (attrs : Attrs) :
    (AGraph.add_node g i attrs).edges = g.edges := by
  unfold AGraph.add_node
  split_ifs <;> rfl

theorem edges_add_edge_not {ν : Type} [DecidableEq ν] (g : AGraph ν) (m n : ν)
    (attrs : Attrs) (he : ¬ AGraph.hasEdge g m n = true) :
    (AGraph.add_edge g m n attrs).edges = g.edges ++ [(m, n, attrs)] := by
  unfold AGraph.add_edge
  rw [if_neg he]
  dsimp only
  split_ifs <;> rfl

theorem edges_add_edge_has {ν : Type} [DecidableEq ν] (g : AGraph ν) (m n : ν)
    (attrs : Attrs) (he : AGraph.hasEdge g m n = true) :
    (AGraph.add_edge g m n attrs).edges = g.edges.map (fun e =>
      if AGraph.edgeMatches m n e then (e.1, e.2.1, dictUpdate e.2.2 attrs) else e) := by
  unfold AGraph.add_edge
  rw [if_pos he]

theorem edgeMatches_endpoints {ν : Type} [DecidableEq ν] (m n a b : ν) (x y : Attrs) :
    AGraph.edgeMatches m n (a, b, x) = AGraph.edgeMatches m n (a, b, y) := rfl

theorem noEdge_add_edge {g : AGraph Int} {a b : Int} {attrs : Attrs} {m n : Int}
    (h : NoEdge g m n) (hab : AGraph.edgeMatches m n (a, b, attrs) = false) :
    NoEdge (AGraph.add_edge g a b attrs) m n := by
  intro e he
  by_cases hedge : AGraph.hasEdge g a b = true
  · rw [edges_add_edge_has g a b attrs hedge] at he
    obtain ⟨e', he', rfl⟩ := List.mem_map.mp he
    by_cases hm : AGraph.edgeMatches a b e' = true
    · rw [if_pos hm]
      have : AGraph.edgeMatches m n (e'.1, e'.2.1, dictUpdate e'.2.2 attrs) =
          AGraph.edgeMatches m n e' := rfl
      rw [this]
      exact h e' he'
    · rw [if_neg hm]
      exact h e' he'
  · rw [edges_add_edge_not g a b attrs hedge] at he
    rcases List.mem_append.mp he with h1 | h2
    · exact h e h1
    · have : e = (a, b, attrs) := by simpa using h2
      rw [this]
      exact hab

theorem noEdge_addEdgesFrom {m n : Int} :
    ∀ (l : List (Int × Int × Attrs)) (g : AGraph Int), NoEdge g m n →
      (∀ e ∈ l, AGraph.edgeMatches m n e = false) →
      NoEdge (AGraph.addEdgesFrom g l) m n
  | [], g, h, _ => h
  | e :: t, g, h, hl => by
    unfold AGraph.addEdgesFrom
    rw [List.foldl_cons]
    exact noEdge_addEdgesFrom t _
      (noEdge_add_edge h (hl e (List.mem_cons_self _ _)))
      (fun e' he' => hl e' (List.mem_cons_of_mem _ he'))

theorem edges_addNodesFrom {ν : Type} [DecidableEq ν] :
    ∀ (l : List (ν × Attrs)) (g : AGraph ν),
      (AGraph.addNodesFrom g l).edges = g.edges
  | [], g => rfl
  | na :: t, g => by
    unfold AGraph.addNodesFrom
    rw [List.foldl_cons]
    have := edges_addNodesFrom t (AGraph.add_node g na.1 na.2)
    unfold AGraph.addNodesFrom at this
    rw [this, edges_add_node]

theorem edgeMatches_symm {ν : Type} [DecidableEq ν] (m n : ν) (e : ν × ν × Attrs) :
    AGraph.edgeMatches n m e = AGraph.edgeMatches m n e := by
  unfold AGraph.edgeMatches
  exact decide_eq_decide.mpr or_comm

theorem noEdge_removeEdge_self (g : AGraph Int) (m n : Int) :
    NoEdge (AGraph.removeEdge g m n) m n := by
  intro e he
  have h2 := (List.mem_filter.mp he).2
  simpa using h2

theorem noEdge_removeEdge_mono {g : AGraph Int} {m n a b : Int} (h : NoEdge g m n) :
    NoEdge (AGraph.removeEdge g a b) m n := by
  intro e he
  exact h e (List.mem_filter.mp he).1

theorem noEdge_removeEdgesFrom {m n : Int} :
    ∀ (pairs : List (Int × Int)) (g : AGraph Int),
      (((m, n) ∈ pairs ∨ (n, m) ∈ pairs → NoEdge (AGraph.removeEdgesFrom g pairs) m n) ∧
       (NoEdge g m n → NoEdge (AGraph.removeEdgesFrom g pairs) m n))
  | [], g => by
    refine ⟨?_, fun h => h⟩
    intro h
    rcases h with h | h <;> cases h
  | p :: t, g => by
    constructor
    · intro h
      unfold AGraph.removeEdgesFrom
      rw [List.foldl_cons]
      rcases h with h | h
      · rcases List.mem_cons.mp h with rfl | h2
        · exact (noEdge_removeEdgesFrom t _).2 (noEdge_removeEdge_self g m n)
        · exact (noEdge_removeEdgesFrom t _).1 (Or.inl h2)
      · rcases List.mem_cons.mp h with rfl | h2
        · refine (noEdge_removeEdgesFrom t _).2 ?_
          intro e he
          rw [← edgeMatches_symm]
          exact noEdge_removeEdge_self g n m e he
        · exact (noEdge_removeEdgesFrom t _).1 (Or.inr h2)
    · intro h
      unfold AGraph.removeEdgesFrom
      rw [List.foldl_cons]
      exact (noEdge_removeEdgesFrom t _).2 (noEdge_removeEdge_mono h)

theorem noEdge_composeNX {s p : AGraph Int} {m n : Int} (hs : NoEdge s m n)
    (hp : ∀ e ∈ p.edges, AGraph.edgeMatches m n e = false) :
    NoEdge (composeNX s p) m n := by
  unfold composeNX
  refine noEdge_addEdgesFrom _ _ (noEdge_addEdgesFrom _ _ ?_ hs) hp
  intro e he
  rw [edges_addNodesFrom, edges_addNodesFrom] at he
  cases he

theorem foldl_patchNodeStep_none (struc : AGraph Int) (nm : List String) :
    ∀ (l : List (Int × Attrs)), l.foldl (patchNodeStep struc nm) none = none
  | [] => rfl
  | na :: t => by
    rw [List.foldl_cons]
    exact foldl_patchNodeStep_none struc nm t

theorem foldl_patchEdgeStep_none (struc : AGraph Int) (bm : List String) :
    ∀ (l : List (Int × Int × Attrs)), l.foldl (patchEdgeStep struc bm) none = none
  | [] => rfl
  | e :: t => by
    rw [List.foldl_cons]
    exact foldl_patchEdgeStep_none struc bm t

theorem patchNodeFold_edges (struc : AGraph Int) (nm : List String) :
    ∀ (l : List (Int × Attrs)) (q p0 : AGraph Int),
      l.foldl (patchNodeStep struc nm) (some q) = some p0 → p0.edges = q.edges
  | [], q, p0, h => by cases h; rfl
  | na :: t, q, p0, h => by
    rw [List.foldl_cons] at h
    cases hr : resolveAll (fun x => AGraph.nodeAttr struc na.1 x)
        (na.2.filter (fun kv => nm.contains kv.1)) with
    | none =>
      rw [show patchNodeStep struc nm (some q) na = none by
        simp only [patchNodeStep, Option.some_bind, hr, Option.map_none']] at h
      rw [foldl_patchNodeStep_none] at h
      cases h
    | some attrs =>
      rw [show patchNodeStep struc nm (some q) na =
          some (AGraph.add_node q na.1 attrs) by
        simp only [patchNodeStep, Option.some_bind, hr, Option.map_some']] at h
      rw [patchNodeFold_edges struc nm t _ _ h, edges_add_node]

theorem patchEdgeFold_noEdge (struc : AGraph Int) (bm : List String) {m n : Int} :
    ∀ (l : List (Int × Int × Attrs)) (q p0 : AGraph Int),
      l.foldl (patchEdgeStep struc bm) (some q) = some p0 →
      NoEdge q m n → (∀ e ∈ l, AGraph.edgeMatches m n e = false) →
      NoEdge p0 m n
  | [], q, p0, h, hq, _ => by cases h; exact hq
  | e :: t, q, p0, h, hq, hl => by
    rw [List.foldl_cons] at h
    cases hr : resolveAll (fun x => AGraph.edgeAttr struc e.1 e.2.1 x)
        (e.2.2.filter (fun kv => bm.contains kv.1)) with
    | none =>
      rw [show patchEdgeStep struc bm (some q) e = none by
        simp only [patchEdgeStep, Option.some_bind, hr, Option.map_none']] at h
      rw [foldl_patchEdgeStep_none] at h
      cases h
    | some attrs =>
      rw [show patchEdgeStep struc bm (some q) e =
          some (AGraph.add_edge q e.1 e.2.1 attrs) by
        simp only [patchEdgeStep, Option.some_bind, hr, Option.map_some']] at h
      exact patchEdgeFold_noEdge struc bm t _ _ h
        (noEdge_add_edge hq (hl e (List.mem_cons_self _ _)))
        (fun e' he' => hl e' (List.mem_cons_of_mem _ he'))

theorem mem_combinations2_of_mem {α : Type} {l : List α} {x y : α}
    (hx : x ∈ l) (hy : y ∈ l) (hxy : x ≠ y) :
    (x, y) ∈ SSSR.combinations2 l ∨ (y, x) ∈ SSSR.combinations2 l := by
  induction l with
  | nil => cases hx
  | cons a t ih =>
    rcases List.mem_cons.mp hx with rfl | hx2
    · rcases List.mem_cons.mp hy with rfl | hy2
      · exact absurd rfl hxy
      · left
        simp only [SSSR.combinations2, List.mem_append, List.mem_map]
        exact Or.inl ⟨y, hy2, rfl⟩
    · rcases List.mem_cons.mp hy with rfl | hy2
      · right
        simp only [SSSR.combinations2, List.mem_append, List.mem_map]
        exact Or.inl ⟨x, hx2, rfl⟩
      · rcases ih hx2 hy2 with h | h
        · left
          simp only [SSSR.combinations2, List.mem_append]
          exact Or.inr h
        · right
          simp only [SSSR.combinations2, List.mem_append]
          exact Or.inr h

/-- C5 (amended): `patcher` is NOT attribute-preserving for an identity,
change-free patch — contradicting the claim, it deletes every structure
edge joining two atoms common to patch and structure that the patch does
not itself re-add (see `patcher_identity_cex` for the refutation of the
claim as stated).  This theorem proves the deletion in general: on any
successful application, an edge of the structure between two distinct
patched atoms that is absent from the patch's edges is absent from the
result. -/
theorem patcher_removes_unpatched_common_edges
    (isCGR : Bool) (struc patch out : AGraph Int)
    (h : patcher isCGR struc patch = some out)
    (m n : Int) (hmn : m ≠ n)
    (hm : (AGraph.nodeIds patch).contains m = true)
    (hms : AGraph.hasNode struc m = true)
    (hn : (AGraph.nodeIds patch).contains n = true)
    (hns : AGraph.hasNode struc n = true)
    (hnotin : ∀ e ∈ patch.edges, AGraph.edgeMatches m n e = false) :
    AGraph.edgeLookup out m n = none := by
  unfold patcher at h
  cases h0 : patch.nodes.foldl (patchNodeStep struc (node_marks isCGR))
      (some (⟨[], [], []⟩ : AGraph Int)) with
  | none =>
    rw [h0] at h
    cases h
  | some p0 =>
    rw [h0] at h
    dsimp only [Option.bind] at h
    cases h1 : patch.edges.foldl (patchEdgeStep struc (bond_marks isCGR)) (some p0) with
    | none =>
      rw [h1] at h
      cases h
    | some p =>
      rw [h1] at h
      dsimp only [Option.map] at h
      cases h
      have hp0 : p0.edges = [] := patchNodeFold_edges struc (node_marks isCGR) _ _ _ h0
      have hq : NoEdge p0 m n := by
        intro e he
        rw [hp0] at he
        cases he
      have hp : NoEdge p m n :=
        patchEdgeFold_noEdge struc (bond_marks isCGR) _ _ _ h1 hq hnotin
      have hmem : (m, n) ∈ SSSR.combinations2
            ((AGraph.nodeIds patch).filter (fun i => AGraph.hasNode struc i)) ∨
          (n, m) ∈ SSSR.combinations2
            ((AGraph.nodeIds patch).filter (fun i => AGraph.hasNode struc i)) :=
        mem_combinations2_of_mem
          (List.mem_filter.mpr ⟨List.elem_iff.mp hm, hms⟩)
          (List.mem_filter.mpr ⟨List.elem_iff.mp hn, hns⟩) hmn
      have hs : NoEdge (AGraph.removeEdgesFrom struc
          (SSSR.combinations2
            ((AGraph.nodeIds patch).filter (fun i => AGraph.hasNode struc i)))) m n :=
        (noEdge_removeEdgesFrom _ _).1 hmem
      exact edgeLookup_eq_none (noEdge_composeNX hs hp)

/-- The target of the C5 counterexample: two carbon atoms joined by a
single bond. -/
def cexStructure : AGraph Int :=
  ⟨[(1, [("element", Val.str "C"), ("s_charge", Val.int 0)]),
    (2, [("element", Val.str "C"), ("s_charge", Val.int 0)])],
   [(1, 2, [("s_bond", Val.int 1)])], []⟩

/-- The patch of the C5 counterexample: the same two atoms with identical
attributes (identity mapping, no conditional values, no attribute
changes) and no edges. -/
def cexPatch : AGraph Int :=
  ⟨[(1, [("element", Val.str "C"), ("s_charge", Val.int 0)]),
    (2, [("element", Val.str "C"), ("s_charge", Val.int 0)])], [], []⟩

/-- C5 counterexample: the structure has the bond `1-2`, the identity
change-free patch leaves every attribute equal — yet the patched result
has NO edge between `1` and `2`: the bond's attributes are not unchanged,
the bond is gone. -/
theorem patcher_identity_cex :
    AGraph.edgeLookup cexStructure 1 2 = some [("s_bond", Val.int 1)] ∧
    (patcher true cexStructure cexPatch).map (fun out => AGraph.edgeLookup out 1 2) =
      some none :=
  ⟨rfl, rfl⟩

theorem patcher_removes_unpatched_common_edges_witness :
    AGraph.edgeLookup ((patcher true cexStructure cexPatch).getD ⟨[], [], []⟩) 1 2 = none :=
  patcher_removes_unpatched_common_edges true cexStructure cexPatch
    ((patcher true cexStructure cexPatch).getD ⟨[], [], []⟩) rfl 1 2 (by decide)
    rfl rfl rfl rfl (fun e he => absurd he (List.not_mem_nil e))

end Reactor

namespace Reactor

/-! ## `CGRreactor.clone_subgraphs` (reactor.py lines 111-214, C6)

The claim is about object identity and mutation, so this part of the
embedding is heap-passing: a `Heap` is a store of `CGRContainer` objects
and functions receive and return references into it.  Python aliasing
(`tmp = g`) is reference copying; `copy()`/`compose`/`fresh` results are
allocations; in-place mutation (`remove_edge`, `add_edge`,
`meta.update`) is a heap write at the mutated object's reference.

External or absent collaborators are parameters operating on values:
`has_path` (networkx), `CGRcore.split` (`splitComponents`),
`CGRcore.union` (`unionG`), `GraphMatcher(...).subgraph_isomorphisms_iter`
(`iso`, mappings as association lists keyed by the pattern graph's atoms)
and `CGRreactor.__remap_group` (`remapGroup`, whose `remap` method and set
iteration order live outside `src/`).  Modelled from the spec: `compose`,
`CGRcore.union` and `copy()` return fresh containers, so each is an
allocation of a new object.  Dict `KeyError` is `PyErr.keyError`; a
`remove_edge` on an already-removed edge is modelled as a no-op. -/

abbrev Heap := List (AGraph Int)

def readH (h : Heap) (r : Nat) : AGraph Int := h.getD r ⟨[], [], []⟩

def allocH (h : Heap) (g : AGraph Int) : Heap × Nat := (h ++ [g], h.length)

def writeH (h : Heap) (r : Nat) (g : AGraph Int) : Heap := h.set r g

/-- `sp_bond == (1, None)`. -/
def spPlus : Val := Val.prim (Prim.pair (Base.int 1) Base.none)

/-- `sp_bond == (None, 1)`. -/
def spMinus : Val := Val.prim (Prim.pair Base.none (Base.int 1))

/-- `g.adjacency()` row of node `n`: its neighbours with edge attribute
dicts. -/
def adjacencyOf (g : AGraph Int) (n : Int) : List (Int × Attrs) :=
  g.edges.filterMap (fun e =>
    if e.1 = n then some (e.2.1, e.2.2)
    else if e.2.1 = n then some (e.1, e.2.2)
    else none)

/-- `CGRreactor.__get_substitution_paths` (reactor.py lines 134-149). -/
def get_substitution_paths (g : AGraph Int) : List (Int × Int × Int) :=
  (AGraph.nodeIds g).bind (fun n =>
    (SSSR.combinations2 ((adjacencyOf g n).map (·.1))).filterMap (fun ml =>
      match AGraph.edgeAttr g n ml.1 "sp_bond", AGraph.edgeAttr g n ml.2 "sp_bond" with
      | some a, some b =>
        if a = spPlus ∧ b = spMinus then some (ml.1, n, ml.2)
        else if a = spMinus ∧ b = spPlus then some (ml.2, n, ml.1)
        else none
      | _, _ => none))

/-- `CGRreactor.__get_broken_paths` (reactor.py lines 151-155). -/
def get_broken_paths (g : AGraph Int) : List (Int × Int) :=
  g.edges.filterMap (fun e =>
    if alLookup e.2.2 "sp_bond" = some spMinus then some (e.2.1, e.1) else none)

/-- The first loop of `__split_graph`: record each new lost bond `(n, l)`
and break both bonds of the substitution path. -/
def splitLoop1 (st : AGraph Int × List (Int × Int)) (paths : List (Int × Int × Int)) :
    AGraph Int × List (Int × Int) :=
  paths.foldl (fun st lnm =>
    if st.2.contains (lnm.2.1, lnm.1) then st
    else (AGraph.removeEdge (AGraph.removeEdge st.1 lnm.2.1 lnm.1) lnm.2.1 lnm.2.2,
      st.2 ++ [(lnm.2.1, lnm.1)])) st

/-- The second loop of `__split_graph`: break each broken path not
connected to a lost bond and record its terminal atoms. -/
def splitLoop2 (hasPath : AGraph Int → Int → Int → Bool) (lostAtoms : List Int)
    (st : AGraph Int × List Int) (broken : List (Int × Int)) :
    AGraph Int × List Int :=
  broken.foldl (fun st nm =>
    if lostAtoms.any (fun x => hasPath st.1 x nm.1 || hasPath st.1 x nm.2) then st
    else (AGraph.removeEdge st.1 nm.1 nm.2, st.2 ++ [nm.1, nm.2])) st

/-- `CGRreactor.__split_graph` (reactor.py lines 111-132): copy the
input, break substitution and disconnected broken paths on the copy,
split the copy into components. -/
def split_graph (hasPath : AGraph Int → Int → Int → Bool)
    (splitComponents : AGraph Int → List (AGraph Int)) (h : Heap) (r : Nat) :
    Heap × List (AGraph Int) × List (Int × Int) × List Int :=
  let hc := allocH h (readH h r)
  let g0 := readH hc.1 hc.2
  let st1 := splitLoop1 (g0, []) (get_substitution_paths g0)
  let lostAtoms := st1.2.bind (fun p => [p.1, p.2])
  let st2 := splitLoop2 hasPath lostAtoms (st1.1, []) (get_broken_paths st1.1)
  (writeH hc.1 hc.2 st2.1, splitComponents st2.1, st1.2, st2.2)

/-- Python dict built from pairs (`last assignment wins`) with `get`
lookup. -/
def pyDictGet {ω : Type} (l : List (Int × ω)) (k : Int) : Option ω :=
  (l.reverse.find? (fun p => decide (p.1 = k))).map (·.2)

/-- The component classification loop of `clone_subgraphs` (lines
174-185): components holding an x-terminal go to `x_group` keyed by one
of them, components holding an r-terminal to `r_group` with their
r-terminal set, the rest to `newcomponents`. -/
def classify (x_terminals r_terminals : List Int) (comps : List (AGraph Int)) :
    List (Int × AGraph Int) × List (List Int × AGraph Int) × List (AGraph Int) :=
  comps.foldl (fun acc i =>
    match x_terminals.filter (fun a => (AGraph.nodeIds i).contains a) with
    | x :: _ => (acc.1 ++ [(x, i)], acc.2.1, acc.2.2)
    | [] =>
      match r_terminals.filter (fun a => (AGraph.nodeIds i).contains a) with
      | [] => (acc.1, acc.2.1, acc.2.2 ++ [i])
      | a :: t => (acc.1, acc.2.1 ++ [(a :: t, i)], acc.2.2))
    ([], [], [])

/-- The `next((x for x in gm.subgraph_isomorphisms_iter() if ...), None)`
selection (lines 192-196) over the ordered `r_group`: the first group
whose first qualifying mapping is truthy (a non-empty dict). -/
def findClone (iso : AGraph Int → AGraph Int → List (List (Int × Int)))
    (term_atoms : List Int) (i : AGraph Int) :
    List (List Int × AGraph Int) → Option (List Int × AGraph Int × List (Int × Int))
  | [] => none
  | kj :: rest =>
    match (iso kj.2 i).find? (fun x => kj.1.all (fun y =>
        match pyDictGet x y with
        | some v => term_atoms.contains v
        | none => false)) with
    | some x => if x.isEmpty then findClone iso term_atoms i rest else some (kj.1, kj.2, x)
    | none => findClone iso term_atoms i rest

/-- One iteration of the `newcomponents` loop (lines 188-200): on a
match, `tmp = compose(tmp, remap_group(j, tmp, mapping)[0])` allocates
the composed graph and rebinds `tmp`; the clone is recorded. -/
def rStep (iso : AGraph Int → AGraph Int → List (List (Int × Int)))
    (remapGroup : AGraph Int → AGraph Int → List (Int × Int) → AGraph Int × List (Int × Int))
    (term_atoms : List Int) (r_group : List (List Int × AGraph Int))
    (st : Heap × Nat × List (List Int × List (Int × Int))) (i : AGraph Int) :
    Heap × Nat × List (List Int × List (Int × Int)) :=
  match findClone iso term_atoms i r_group with
  | none => st
  | some kjx =>
    let tmpVal := readH st.1 st.2.1
    let newVal := composeNX tmpVal (remapGroup kjx.2.1 tmpVal kjx.2.2).1
    let ha := allocH st.1 newVal
    (ha.1, ha.2, st.2.2 ++ [(kjx.1, kjx.2.2)])

def cloneRLoop (iso : AGraph Int → AGraph Int → List (List (Int × Int)))
    (remapGroup : AGraph Int → AGraph Int → List (Int × Int) → AGraph Int × List (Int × Int))
    (term_atoms : List Int) (r_group : List (List Int × AGraph Int))
    (newcomps : List (AGraph Int)) (h1 : Heap) (r : Nat) :
    Heap × Nat × List (List Int × List (Int × Int)) :=
  newcomps.foldl (rStep iso remapGroup term_atoms r_group) (h1, r, [])

/-- One iteration of the x-group loop body (lines 204-208):
`tmp = CGRcore.union(tmp, remap_group(x_group[lost_map[k]], tmp, {})[0])`
allocates the union and rebinds `tmp`, then
`tmp.add_edge(j[k], mapping[lost_map[k]], s_bond=1, sp_bond=(1, None))`
mutates the new object in place. -/
def xStep (remapGroup : AGraph Int → AGraph Int → List (Int × Int) → AGraph Int × List (Int × Int))
    (unionG : AGraph Int → AGraph Int → AGraph Int)
    (x_group : List (Int × AGraph Int)) (lost_bonds : List (Int × Int))
    (st : Heap × Nat) (p : Int × List (Int × Int)) :
    Except Container.PyErr (Heap × Nat) :=
  match pyDictGet lost_bonds p.1 with
  | none => Except.error (Container.PyErr.keyError "lost_map")
  | some lm =>
    match pyDictGet x_group lm with
    | none => Except.error (Container.PyErr.keyError "x_group")
    | some xg =>
      let rm := remapGroup xg (readH st.1 st.2) []
      let ha := allocH st.1 (unionG (readH st.1 st.2) rm.1)
      match pyDictGet p.2 p.1, pyDictGet rm.2 lm with
      | some jk, some m2 =>
        Except.ok (writeH ha.1 ha.2
          (AGraph.add_edge (readH ha.1 ha.2) jk m2
            [("s_bond", Val.int 1), ("sp_bond", spPlus)]), ha.2)
      | _, _ => Except.error (Container.PyErr.keyError "mapping")

def cloneXLoop (remapGroup : AGraph Int → AGraph Int → List (Int × Int) → AGraph Int × List (Int × Int))
    (unionG : AGraph Int → AGraph Int → AGraph Int)
    (x_group : List (Int × AGraph Int)) (lost_bonds : List (Int × Int))
    (pairs : List (Int × List (Int × Int))) (start : Heap × Nat) :
    Except Container.PyErr (Heap × Nat) :=
  pairs.foldl (fun acc p => acc.bind (fun st =>
    xStep remapGroup unionG x_group lost_bonds st p)) (Except.ok start)

/-- Lines 210-214: the guarded `tmp.meta.update(g.meta)` in-place write,
then `return tmp.copy()` — an allocation of a fresh copy. -/
def cloneFinish (gm : Attrs) (b : Bool) (st2 : Heap × Nat) : Heap × Nat :=
  let h3 := if b then
      writeH st2.1 st2.2 { readH st2.1 st2.2 with
        meta := dictUpdate (readH st2.1 st2.2).meta gm }
    else st2.1
  allocH h3 (readH h3 st2.2)

/-- `CGRreactor.clone_subgraphs` (reactor.py lines 156-214). -/
def clone_subgraphs (isCGR : Bool)
    (hasPath : AGraph Int → Int → Int → Bool)
    (splitComponents : AGraph Int → List (AGraph Int))
    (iso : AGraph Int → AGraph Int → List (List (Int × Int)))
    (remapGroup : AGraph Int → AGraph Int → List (Int × Int) → AGraph Int × List (Int × Int))
    (unionG : AGraph Int → AGraph Int → AGraph Int)
    (h : Heap) (r : Nat) : Except Container.PyErr (Heap × Nat) :=
  if isCGR = false then
    Except.error (Container.PyErr.invalidData "only CGRContainer acceptable")
  else
    let sres := split_graph hasPath splitComponents h r
    let lost_bonds := sres.2.2.1
    let cls := classify (lost_bonds.map (·.2)) (lost_bonds.map (·.1)) sres.2.1
    let rr := cloneRLoop iso remapGroup sres.2.2.2 cls.2.1 cls.2.2 sres.1 r
    let pairs := rr.2.2.bind (fun kj => kj.1.map (fun k => (k, kj.2)))
    (cloneXLoop remapGroup unionG cls.1 lost_bonds pairs (rr.1, rr.2.1)).map
      (cloneFinish (readH h r).meta (!rr.2.2.isEmpty))

theorem readH_append {h : Heap} {g : AGraph Int} {i : Nat} (hi : i < h.length) :
    readH (h ++ [g]) i = readH h i := by
  unfold readH
  rw [List.getD_eq_getElem?_getD, List.getD_eq_getElem?_getD,
    List.getElem?_append, if_pos hi]

theorem readH_set_ne {h : Heap} {r : Nat} {g : AGraph Int} {i : Nat} (hi : i ≠ r) :
    readH (writeH h r g) i = readH h i := by
  unfold readH writeH
  rw [List.getD_eq_getElem?_getD, List.getD_eq_getElem?_getD,
    List.getElem?_set_ne (fun he => hi he.symm)]

/-- `h1` extends `h0`: every object allocated in `h0` is unchanged. -/
def HeapExt (h0 h1 : Heap) : Prop :=
  h0.length ≤ h1.length ∧ ∀ i, i < h0.length → readH h1 i = readH h0 i

theorem heapExt_refl (h : Heap) : HeapExt h h :=
  ⟨le_refl _, fun _ _ => rfl⟩

theorem heapExt_trans {a b c : Heap} (h1 : HeapExt a b) (h2 : HeapExt b c) :
    HeapExt a c :=
  ⟨le_trans h1.1 h2.1, fun i hi => (h2.2 i (lt_of_lt_of_le hi h1.1)).trans (h1.2 i hi)⟩

theorem heapExt_alloc (h : Heap) (g : AGraph Int) : HeapExt h (h ++ [g]) := by
  constructor
  · rw [List.length_append]
    omega
  · intro i hi
    exact readH_append hi

theorem heapExt_write {h0 h1 : Heap} {r : Nat} {g : AGraph Int}
    (he : HeapExt h0 h1) (hr : h0.length ≤ r) : HeapExt h0 (writeH h1 r g) := by
  constructor
  · rw [writeH, List.length_set]
    exact he.1
  · intro i hi
    rw [readH_set_ne (by omega)]
    exact he.2 i hi

theorem split_graph_ext (hasPath : AGraph Int → Int → Int → Bool)
    (splitComponents : AGraph Int → List (AGraph Int)) (h : Heap) (r : Nat) :
    HeapExt h (split_graph hasPath splitComponents h r).1 := by
  unfold split_graph
  exact heapExt_write (heapExt_alloc h _) (le_refl _)

theorem foldl_inv {σ α : Type} (P : σ → Prop) (step : σ → α → σ)
    (hstep : ∀ s a, P s → P (step s a)) :
    ∀ (l : List α) (s : σ), P s → P (l.foldl step s)
  | [], _, hs => hs
  | a :: t, s, hs => by
    rw [List.foldl_cons]
    exact foldl_inv P step hstep t _ (hstep s a hs)

/-- The invariant of the `newcomponents` loop: the heap only grows, and
`tmp` is either still the input reference or a freshly allocated one —
and certainly fresh once a clone has been recorded. -/
def RInv (h0 : Heap) (r : Nat) (st : Heap × Nat × List (List Int × List (Int × Int))) :
    Prop :=
  HeapExt h0 st.1 ∧ (st.2.1 = r ∨ h0.length ≤ st.2.1) ∧
    (st.2.2 ≠ [] → h0.length ≤ st.2.1)

theorem rStep_inv (iso : AGraph Int → AGraph Int → List (List (Int × Int)))
    (remapGroup : AGraph Int → AGraph Int → List (Int × Int) → AGraph Int × List (Int × Int))
    (term_atoms : List Int) (r_group : List (List Int × AGraph Int))
    (h0 : Heap) (r : Nat) :
    ∀ st i, RInv h0 r st → RInv h0 r (rStep iso remapGroup term_atoms r_group st i) := by
  intro st i hst
  unfold rStep
  cases findClone iso term_atoms i r_group with
  | none => exact hst
  | some kjx =>
    exact ⟨heapExt_trans hst.1 (heapExt_alloc _ _), Or.inr hst.1.1, fun _ => hst.1.1⟩

theorem cloneRLoop_inv (iso : AGraph Int → AGraph Int → List (List (Int × Int)))
    (remapGroup : AGraph Int → AGraph Int → List (Int × Int) → AGraph Int × List (Int × Int))
    (term_atoms : List Int) (r_group : List (List Int × AGraph Int))
    (newcomps : List (AGraph Int)) (h0 h1 : Heap) (r : Nat)
    (hinit : HeapExt h0 h1) :
    RInv h0 r (cloneRLoop iso remapGroup term_atoms r_group newcomps h1 r) := by
  unfold cloneRLoop
  exact foldl_inv (RInv h0 r) _ (rStep_inv iso remapGroup term_atoms r_group h0 r)
    newcomps _ ⟨hinit, Or.inl rfl, fun hne => absurd rfl hne⟩

theorem cloneXLoop_inv
    (remapGroup : AGraph Int → AGraph Int → List (Int × Int) → AGraph Int × List (Int × Int))
    (unionG : AGraph Int → AGraph Int → AGraph Int)
    (x_group : List (Int × AGraph Int)) (lost_bonds : List (Int × Int))
    (h0 : Heap) (pairs : List (Int × List (Int × Int))) (start : Heap × Nat)
    (hstart : HeapExt h0 start.1) {st2 : Heap × Nat}
    (hok : cloneXLoop remapGroup unionG x_group lost_bonds pairs start =
      Except.ok st2) :
    HeapExt h0 st2.1 ∧ (st2.2 = start.2 ∨ h0.length ≤ st2.2) := by
  have hmain := foldl_inv
    (fun est : Except Container.PyErr (Heap × Nat) => ∀ s, est = Except.ok s →
      HeapExt h0 s.1 ∧ (s.2 = start.2 ∨ h0.length ≤ s.2))
    (fun acc p => acc.bind (fun st => xStep remapGroup unionG x_group lost_bonds st p))
    ?hstep pairs (Except.ok start) ?hinit
  · exact hmain st2 hok
  case hinit =>
    intro s heq
    cases heq
    exact ⟨hstart, Or.inl rfl⟩
  case hstep =>
    intro acc p hacc s heq
    cases acc with
    | error e =>
      dsimp only [Except.bind] at heq
      cases heq
    | ok st =>
      dsimp only [Except.bind] at heq
      obtain ⟨hext, _⟩ := hacc st rfl
      unfold xStep at heq
      cases hlm : pyDictGet lost_bonds p.1 with
      | none => rw [hlm] at heq; cases heq
      | some lm =>
        rw [hlm] at heq
        dsimp only at heq
        cases hxg : pyDictGet x_group lm with
        | none => rw [hxg] at heq; cases heq
        | some xg =>
          rw [hxg] at heq
          dsimp only at heq
          cases hjk : pyDictGet p.2 p.1 with
          | none => rw [hjk] at heq; cases heq
          | some jk =>
            rw [hjk] at heq
            cases hm2 : pyDictGet (remapGroup xg (readH st.1 st.2) []).2 lm with
            | none => rw [hm2] at heq; cases heq
            | some m2 =>
              rw [hm2] at heq
              cases heq
              refine ⟨heapExt_write (heapExt_trans hext (heapExt_alloc _ _)) hext.1,
                Or.inr hext.1⟩

theorem map_eq_ok {ε α β : Type} {f : α → β} {e : Except ε α} {b : β}
    (h : Except.map f e = Except.ok b) : ∃ a, e = Except.ok a ∧ b = f a := by
  cases e with
  | error err => cases h
  | ok a =>
    refine ⟨a, rfl, ?_⟩
    cases h
    rfl

theorem cloneFinish_frame (gm : Attrs) (b : Bool) (st2 : Heap × Nat) (h0 : Heap)
    (hext : HeapExt h0 st2.1) (hguard : b = true → h0.length ≤ st2.2)
    {h' : Heap} {r' : Nat} (hfin : (h', r') = cloneFinish gm b st2) :
    HeapExt h0 h' ∧ h0.length ≤ r' := by
  unfold cloneFinish at hfin
  cases hb : b with
  | false =>
    rw [hb] at hfin
    rw [if_neg (by simp)] at hfin
    rw [Prod.mk.injEq] at hfin
    obtain ⟨rfl, rfl⟩ := hfin
    exact ⟨heapExt_trans hext (heapExt_alloc _ _), hext.1⟩
  | true =>
    rw [hb] at hfin
    rw [if_pos rfl] at hfin
    rw [Prod.mk.injEq] at hfin
    obtain ⟨rfl, rfl⟩ := hfin
    have hw : HeapExt h0 (writeH st2.1 st2.2
        { readH st2.1 st2.2 with
          meta := dictUpdate (readH st2.1 st2.2).meta gm }) :=
      heapExt_write hext (hguard hb)
    refine ⟨heapExt_trans hw (heapExt_alloc _ _), ?_⟩
    exact le_trans hext.1 (le_of_eq (List.length_set _ _ _).symm)

theorem clone_body_frame (h0 : Heap) (r : Nat)
    (rr : Heap × Nat × List (List Int × List (Int × Int)))
    (hrr : RInv h0 r rr)
    (x_group : List (Int × AGraph Int)) (lost_bonds : List (Int × Int))
    (pairs : List (Int × List (Int × Int))) (gm : Attrs)
    (remapGroup : AGraph Int → AGraph Int → List (Int × Int) → AGraph Int × List (Int × Int))
    (unionG : AGraph Int → AGraph Int → AGraph Int)
    {h' : Heap} {r' : Nat}
    (hok : (cloneXLoop remapGroup unionG x_group lost_bonds pairs (rr.1, rr.2.1)).map
      (cloneFinish gm (!rr.2.2.isEmpty)) = Except.ok (h', r')) :
    HeapExt h0 h' ∧ h0.length ≤ r' := by
  obtain ⟨st2, hxfok, hfin⟩ := map_eq_ok hok
  have hX := cloneXLoop_inv remapGroup unionG x_group lost_bonds h0 pairs
    (rr.1, rr.2.1) hrr.1 hxfok
  refine cloneFinish_frame gm (!rr.2.2.isEmpty) st2 h0 hX.1 ?_ hfin
  intro hb
  have hne : rr.2.2 ≠ [] := by
    intro hemp
    rw [hemp] at hb
    cases hb
  have hfresh : h0.length ≤ rr.2.1 := hrr.2.2 hne
  rcases hX.2 with he | he
  · rw [he]
    exact hfresh
  · exact he

/-- C6: `clone_subgraphs` never mutates any pre-existing object — in
particular the input graph's nodes, edges, attributes and metadata are
unchanged — and the returned reference is a freshly allocated copy,
distinct from the input reference.  The loops only allocate (`compose`,
`CGRcore.union`, the final `copy()`); the only in-place writes
(`add_edge` on the union, the guarded `meta.update`) hit objects
allocated during the call, the latter because a recorded clone forces
`tmp` to have been rebound to a composed fresh graph. -/
theorem clone_subgraphs_frame
    (hasPath : AGraph Int → Int → Int → Bool)
    (splitComponents : AGraph Int → List (AGraph Int))
    (iso : AGraph Int → AGraph Int → List (List (Int × Int)))
    (remapGroup : AGraph Int → AGraph Int → List (Int × Int) → AGraph Int × List (Int × Int))
    (unionG : AGraph Int → AGraph Int → AGraph Int)
    (h : Heap) (r : Nat) (h' : Heap) (r' : Nat)
    (hok : clone_subgraphs true hasPath splitComponents iso remapGroup unionG h r =
      Except.ok (h', r'))
    (hr : r < h.length) :
    (∀ i, i < h.length → readH h' i = readH h i) ∧
    h.length ≤ r' ∧ r' ≠ r ∧ readH h' r = readH h r := by
  unfold clone_subgraphs at hok
  rw [if_neg (by decide)] at hok
  have key := clone_body_frame h r _
    (cloneRLoop_inv iso remapGroup _ _ _ h _ r
      (split_graph_ext hasPath splitComponents h r))
    _ _ _ _ _ _ hok
  refine ⟨fun i hi => key.1.2 i hi, key.2, ?_, key.1.2 r hr⟩
  intro he
  rw [he] at key
  exact absurd key.2 (not_le.mpr hr)

theorem clone_subgraphs_frame_witness :
    (∀ i, i < 1 → readH
        (((clone_subgraphs true (fun _ _ _ => false) (fun _ => []) (fun _ _ => [])
          (fun g _ _ => (g, [])) (fun g _ => g) [⟨[], [], []⟩] 0).toOption.getD ([], 0)).1) i =
        readH [⟨[], [], []⟩] i) ∧
    1 ≤ (((clone_subgraphs true (fun _ _ _ => false) (fun _ => []) (fun _ _ => [])
        (fun g _ _ => (g, [])) (fun g _ => g) [⟨[], [], []⟩] 0).toOption.getD ([], 0)).2) ∧
    (((clone_subgraphs true (fun _ _ _ => false) (fun _ => []) (fun _ _ => [])
        (fun g _ _ => (g, [])) (fun g _ => g) [⟨[], [], []⟩] 0).toOption.getD ([], 0)).2) ≠ 0 ∧
    readH (((clone_subgraphs true (fun _ _ _ => false) (fun _ => []) (fun _ _ => [])
        (fun g _ _ => (g, [])) (fun g _ => g) [⟨[], [], []⟩] 0).toOption.getD ([], 0)).1) 0 =
      readH [⟨[], [], []⟩] 0 :=
  clone_subgraphs_frame (fun _ _ _ => false) (fun _ => []) (fun _ _ => [])
    (fun g _ _ => (g, [])) (fun g _ => g) [⟨[], [], []⟩] 0
    (((clone_subgraphs true (fun _ _ _ => false) (fun _ => []) (fun _ _ => [])
      (fun g _ _ => (g, [])) (fun g _ => g) [⟨[], [], []⟩] 0).toOption.getD ([], 0)).1)
    (((clone_subgraphs true (fun _ _ _ => false) (fun _ => []) (fun _ _ => [])
      (fun g _ _ => (g, [])) (fun g _ => g) [⟨[], [], []⟩] 0).toOption.getD ([], 0)).2)
    rfl (by decide)

end Reactor

end CGRtools
